import Mathlib

/-!
# Verification of the GithubAPI service module

Shallow embedding of `src/utils.py` (the `GitHub` client: `decode_content`,
`limiter`, `get_user_info`, `clone_repo` with its inner `process_content`
walk) together with the parts of the Python standard library the module
relies on (`base64.b64decode`, `bytes.decode('utf-8')`, list slicing).

Bytes are modelled as `Nat` values `< 256`; unicode code points as `Nat`.
Filesystem paths are lists of path segments.
-/

namespace GhApi

set_option maxRecDepth 4000

deriving instance DecidableEq for Except

/-! ## Base64 (model of Python `base64.b64encode` / `base64.b64decode`) -/

/-- The standard base64 alphabet, index `i` (for `i < 64`) to character. -/
def b64Alphabet : List Char :=
  "ABCDEFGHIJKLMNOPQRSTUVWXYZabcdefghijklmnopqrstuvwxyz0123456789+/".data

/-- Character to 6-bit value; `none` when the character is not in the
standard base64 alphabet. -/
def b64Val (c : Char) : Option Nat :=
  b64Alphabet.indexOf? c |>.map (fun i => i)

/-- Index to character (total; only used at indices `< 64`). -/
def b64Char (i : Nat) : Char :=
  b64Alphabet.getD i '='

/-- The 6-bit groups of a byte string (without padding), three bytes at a
time, exactly as `base64.b64encode` produces them. -/
def b64Vals : List Nat → List Nat
  | [] => []
  | [b0] => [b0 / 4, b0 % 4 * 16]
  | [b0, b1] => [b0 / 4, b0 % 4 * 16 + b1 / 16, b1 % 16 * 4]
  | b0 :: b1 :: b2 :: rest =>
    b0 / 4 :: (b0 % 4 * 16 + b1 / 16) :: (b1 % 16 * 4 + b2 / 64) :: b2 % 64 :: b64Vals rest

/-- Number of `'='` padding characters `base64.b64encode` appends. -/
def b64PadCount : List Nat → Nat
  | [] => 0
  | [_] => 2
  | [_, _] => 1
  | _ :: _ :: _ :: rest => b64PadCount rest

/-- Model of Python `base64.b64encode` (returning the ASCII string). -/
def b64encode (bs : List Nat) : String :=
  String.mk ((b64Vals bs).map b64Char ++ List.replicate (b64PadCount bs) '=')

/-- The scanner of `binascii.a2b_base64` in non-strict mode (CPython
3.11), character by character.  State: `quadPos` (position inside the
current 6-bit quad, 0-3), `leftchar` (bits carried from the previous
character), `pads` (consecutive padding count, reset by any data
character), and the bytes emitted so far.
- a `'='` with `quadPos ≥ 2` increments `pads`, and once
  `quadPos + pads ≥ 4` the quad is complete: scanning *stops* and the
  bytes emitted so far are returned (anything after the padding is
  ignored); a `'='` with `quadPos < 2` is ignored;
- a character outside the alphabet is discarded (`pads` untouched);
- an alphabet character with value `v` resets `pads` and shifts 6 bits
  in, emitting a byte at quad positions 1, 2 and 3;
- at end of input a non-zero `quadPos` is a `binascii.Error` ("number of
  data characters cannot be 1 more than a multiple of 4" when
  `quadPos = 1`, "Incorrect padding" otherwise). -/
def b64Run : List Char → Nat → Nat → Nat → List Nat → Except Unit (List Nat)
  | [], quadPos, _, _, out => if quadPos = 0 then .ok out else .error ()
  | c :: rest, quadPos, leftchar, pads, out =>
    if c = '=' then
      if 2 ≤ quadPos then
        if 4 ≤ quadPos + (pads + 1) then .ok out
        else b64Run rest quadPos leftchar (pads + 1) out
      else b64Run rest quadPos leftchar pads out
    else
      match b64Val c with
      | none => b64Run rest quadPos leftchar pads out
      | some v =>
        match quadPos with
        | 0 => b64Run rest 1 v 0 out
        | 1 => b64Run rest 2 (v % 16) 0 (out ++ [leftchar * 4 + v / 16])
        | 2 => b64Run rest 3 (v % 4) 0 (out ++ [leftchar * 16 + v / 4])
        | _ => b64Run rest 0 0 0 (out ++ [leftchar * 64 + v])

/-- Model of Python `base64.b64decode` on a `str` argument (default
`validate=False`): the string is first encoded as ASCII — any character
`≥ 0x80` raises `ValueError` — and the resulting bytes go through the
non-strict `binascii.a2b_base64` scanner (`b64Run`).  Both failure modes
(`ValueError` and `binascii.Error`) are modelled as `Except.error ()`. -/
def b64decode (s : String) : Except Unit (List Nat) :=
  if s.data.all (fun c => c.toNat < 128) then b64Run s.data 0 0 0 []
  else .error ()

/-! ## UTF-8 (model of Python `bytes.decode('utf-8')` / `str.encode('utf-8')`)

Python's strict UTF-8 codec rejects overlong encodings, surrogates
(`0xED 0xA0..` leads) and code points above `U+10FFFF`; the decoder below
implements exactly those lead/continuation ranges. -/

/-- Continuation byte test: `0x80 ≤ b < 0xC0`. -/
def utf8Cont (b : Nat) : Bool := 0x80 ≤ b && b < 0xC0

/-- Length of the UTF-8 sequence a lead byte `b` opens (`0` when `b` can
never start a valid sequence: a bare continuation byte, the overlong
leads `0xC0`/`0xC1`, or `0xF5` and above). -/
def utf8Need (b : Nat) : Nat :=
  if b < 0x80 then 1
  else if b < 0xC2 then 0
  else if b < 0xE0 then 2
  else if b < 0xF0 then 3
  else if b < 0xF5 then 4
  else 0

/-- Validity of the continuation byte of a 2-byte sequence. -/
def utf8Ok2 (b1 : Nat) : Bool := utf8Cont b1

/-- Validity of the continuation bytes of a 3-byte sequence (the first
continuation range depends on the lead: `0xE0` rejects overlongs, `0xED`
rejects surrogates). -/
def utf8Ok3 (b b1 b2 : Nat) : Bool :=
  (if b = 0xE0 then 0xA0 ≤ b1 && b1 < 0xC0
   else if b = 0xED then 0x80 ≤ b1 && b1 < 0xA0
   else utf8Cont b1) && utf8Cont b2

/-- Validity of the continuation bytes of a 4-byte sequence (`0xF0`
rejects overlongs, `0xF4` rejects code points above `U+10FFFF`). -/
def utf8Ok4 (b b1 b2 b3 : Nat) : Bool :=
  (if b = 0xF0 then 0x90 ≤ b1 && b1 < 0xC0
   else if b = 0xF4 then 0x80 ≤ b1 && b1 < 0x90
   else utf8Cont b1) && utf8Cont b2 && utf8Cont b3

/-- Code point of a 2-byte sequence. -/
def utf8Cp2 (b b1 : Nat) : Nat := (b - 0xC0) * 64 + (b1 - 0x80)

/-- Code point of a 3-byte sequence. -/
def utf8Cp3 (b b1 b2 : Nat) : Nat := (b - 0xE0) * 4096 + (b1 - 0x80) * 64 + (b2 - 0x80)

/-- Code point of a 4-byte sequence. -/
def utf8Cp4 (b b1 b2 b3 : Nat) : Nat :=
  (b - 0xF0) * 262144 + (b1 - 0x80) * 4096 + (b2 - 0x80) * 64 + (b3 - 0x80)

/-- Strict UTF-8 decoder: bytes to code points, `none` on any invalid
sequence (model of `bytes.decode('utf-8')` raising `UnicodeDecodeError`). -/
def utf8Decode : List Nat → Option (List Nat)
  | [] => some []
  | b :: rest =>
    match utf8Need b, rest with
    | 1, r => (utf8Decode r).map (b :: ·)
    | 2, b1 :: r => if utf8Ok2 b1 then (utf8Decode r).map (utf8Cp2 b b1 :: ·) else none
    | 3, b1 :: b2 :: r =>
      if utf8Ok3 b b1 b2 then (utf8Decode r).map (utf8Cp3 b b1 b2 :: ·) else none
    | 4, b1 :: b2 :: b3 :: r =>
      if utf8Ok4 b b1 b2 b3 then (utf8Decode r).map (utf8Cp4 b b1 b2 b3 :: ·) else none
    | _, _ => none

/-- UTF-8 encoding of a single code point (model of `str.encode('utf-8')`
for one character). -/
def utf8EncodeChar (c : Nat) : List Nat :=
  if c < 0x80 then [c]
  else if c < 0x800 then [0xC0 + c / 64, 0x80 + c % 64]
  else if c < 0x10000 then [0xE0 + c / 4096, 0x80 + c / 64 % 64, 0x80 + c % 64]
  else [0xF0 + c / 262144, 0x80 + c / 4096 % 64, 0x80 + c / 64 % 64, 0x80 + c % 64]

/-- UTF-8 encoding of a code-point sequence. -/
def utf8Encode : List Nat → List Nat
  | [] => []
  | c :: rest => utf8EncodeChar c ++ utf8Encode rest

/-! ## `decode_content` (src/utils.py lines 22-35)

```python
def decode_content(content: str) -> tuple[str, int]:
    try:
        return b64decode(content).decode('utf-8'), 1
    except Exception:
        return b64decode(content), 0
```

A decoded text is carried as its code points, a binary payload as its raw
bytes.  Note that when the *first* `b64decode` raises (invalid base64),
the `except` branch calls `b64decode` again on the same input, which
raises again — that exception escapes `decode_content`, hence the
`Except` result. -/

/-- The value returned by `decode_content`: a Python `str` (code points)
or a Python `bytes` (raw bytes). -/
inductive Payload where
  | text (cps : List Nat)
  | binary (bs : List Nat)
  deriving DecidableEq, Repr

/-- Model of `decode_content`.  `Except.error ()` is the `binascii.Error`
escaping when `content` is not valid base64. -/
def decode_content (content : String) : Except Unit (Payload × Nat) :=
  match b64decode content with
  | .error e => .error e
  | .ok bs =>
    match utf8Decode bs with
    | some cps => .ok (.text cps, 1)
    | none => .ok (.binary bs, 0)

/-! ## `limiter` (src/utils.py lines 38-51) and Python list slicing

```python
def limiter(data, limit=None):
    if limit is None:
        return data
    return data[:limit] if isinstance(data, list) else data
```
-/

/-- A Python iterable as `limiter` distinguishes them: a concrete `list`,
or any other iterable (opaque, e.g. a lazy `PaginatedList`). -/
inductive PyIter (α : Type) where
  | list (xs : List α)
  | other (tag : Nat)
  deriving DecidableEq, Repr

/-- Model of the Python slice `xs[:n]` for an arbitrary integer `n`
(negative `n` counts from the end, clamped at zero). -/
def pySliceTo {α : Type} (xs : List α) (n : Int) : List α :=
  xs.take (if 0 ≤ n then n.toNat else ((xs.length : Int) + n).toNat)

/-- Model of `limiter`. -/
def limiter {α : Type} (data : PyIter α) (limit : Option Int) : PyIter α :=
  match limit with
  | none => data
  | some n =>
    match data with
    | .list xs => .list (pySliceTo xs n)
    | .other t => .other t

/-- Length of a concrete-list iterable (a lazy iterable has no materialized
length; `0` is a placeholder never relied upon). -/
def pyLen {α : Type} : PyIter α → Nat
  | .list xs => xs.length
  | .other _ => 0

/-! ## The remote repository (the GitHub API boundary)

A repository snapshot is a finite tree of named entries.  A directory
listing (`repo.get_contents(path)`) returns its direct children in tree
order with their full paths; a file access returns the blob's base64
content, or a transport error (the injected failure mode of §7 of the
spec).  The tree is represented directly as its child list, cons-style,
which keeps every function structurally recursive. -/

/-- A directory level of the remote tree: a sequence of named children,
each either a file (with the `Except` outcome of fetching its base64
content: `.error ()` models a `TransportError` on the fetch) or a
subdirectory. -/
inductive RTree where
  | nil : RTree
  | consFile (name : String) (blob : Except Unit String) (rest : RTree) : RTree
  | consDir (name : String) (sub : RTree) (rest : RTree) : RTree

/-- A remote host: one tree snapshot per git reference; `none` is the
repository's default branch (the `NotSet` ref). -/
def Remote : Type := Option String → RTree

/-- Exceptions that can escape the clone walk. `fuelOut` is an artifact
of the fuel-bounded model (Python recursion has no such bound); theorems
about completed walks hypothesise a `none` outcome, which rules it out. -/
inductive Exn where
  | transport | notFound | decodeErr | localErr | fuelOut
  deriving DecidableEq, Repr

/-- The names of a tree level's children, in listing order. -/
def RTree.names : RTree → List String
  | .nil => []
  | .consFile n _ r => n :: r.names
  | .consDir n _ r => n :: r.names

/-- Look up a direct child by name (first match, as the GitHub API would
resolve the path segment). -/
def RTree.findKid : RTree → String → Option (Except Unit String ⊕ RTree)
  | .nil, _ => none
  | .consFile m b r, n => if m = n then some (.inl b) else r.findKid n
  | .consDir m s r, n => if m = n then some (.inr s) else r.findKid n

/-- The subtree at a path (only directories traverse); `none` when the
path does not name a directory. -/
def subtreeAt : RTree → List String → Option RTree
  | t, [] => some t
  | t, n :: rest =>
    match t.findKid n with
    | some (.inr s) => subtreeAt s rest
    | _ => none

/-- Fetching the blob at a file path: `404` (`.notFound`) when the path
does not name a file, `.transport` when the host fails the fetch. -/
def blobAt : RTree → List String → Except Exn String
  | _, [] => .error .notFound
  | t, [n] =>
    match t.findKid n with
    | some (.inl (.ok s)) => .ok s
    | some (.inl (.error _)) => .error .transport
    | _ => .error .notFound
  | t, n :: m :: rest =>
    match t.findKid n with
    | some (.inr s) => blobAt s (m :: rest)
    | _ => .error .notFound

/-- A directory listing as `repo.get_contents(path)` returns it: each
direct child's full path (the directory's path extended by the child's
name) and whether it is a directory (`content.type == "dir"`). -/
def listingOf (base : List String) : RTree → List (List String × Bool)
  | .nil => []
  | .consFile n _ r => (base ++ [n], false) :: listingOf base r
  | .consDir n _ r => (base ++ [n], true) :: listingOf base r

/-- Well-formedness of a remote tree: sibling names are distinct at every
level (the invariant GitHub guarantees for a real repository tree). -/
def RTree.wfb : RTree → Bool
  | .nil => true
  | .consFile n _ r => !(r.names.contains n) && r.wfb
  | .consDir n s r => !(r.names.contains n) && s.wfb && r.wfb

/-- All file paths in a tree (relative to the tree's own root), in
depth-first listing order. -/
def subtreeFiles : RTree → List (List String)
  | .nil => []
  | .consFile n _ r => [n] :: subtreeFiles r
  | .consDir n s r => (subtreeFiles s).map (n :: ·) ++ subtreeFiles r

/-! ## Local filesystem and event log -/

/-- The local filesystem: the set of existing directories and a map from
file paths to written data (`flag`, `payload`) — flag `1`/text payload
means the file was opened in text mode `'w'` with UTF-8 encoding, flag
`0`/binary payload means mode `'wb'` with the raw bytes. -/
structure FS where
  dirs : List (List String)
  files : List (List String × (Nat × Payload))
  deriving DecidableEq, Repr

/-- Replace the value at a key, or append the binding (model of a file
write at a path: truncate-on-open overwrites in place). -/
def setAssoc {κ ν : Type} [DecidableEq κ] : List (κ × ν) → κ → ν → List (κ × ν)
  | [], k, v => [(k, v)]
  | (k', v') :: rest, k, v =>
    if k' = k then (k, v) :: rest else (k', v') :: setAssoc rest k v

/-- First binding of a key. -/
def lookupA {κ ν : Type} [DecidableEq κ] : List (κ × ν) → κ → Option ν
  | [], _ => none
  | (k', v') :: rest, k => if k' = k then some v' else lookupA rest k

/-- The nonempty path segments leading to (and including) a path:
`[a, b] ↦ [[a], [a, b]]`. -/
def pathSegs : List String → List (List String)
  | [] => []
  | x :: rest => [x] :: (pathSegs rest).map (x :: ·)

/-- Register one directory as existing. -/
def addDir (fs : FS) (d : List String) : FS :=
  if d ∈ fs.dirs then fs else { fs with dirs := fs.dirs ++ [d] }

/-- Model of `Path.mkdir(parents=True, exist_ok=True)`: the directory and
all its ancestors exist afterwards. -/
def mkdirP (fs : FS) (p : List String) : FS :=
  (pathSegs p).foldl addDir fs

/-- Write a file (truncate-on-open; parent directory must already exist,
which the caller checks). -/
def writeFile (fs : FS) (p : List String) (flag : Nat) (pl : Payload) : FS :=
  { fs with files := setAssoc fs.files p (flag, pl) }

/-- Informational notices (`self.info(...)` messages of the `GitHub`
client; printed when the client was built with `warnings=True`). -/
inductive Msg where
  | processingDir (path : List String)
  | processingFile (path : List String)
  | skipExisting (rn : String)
  | overwriteExisting (rn : String)
  | processingRepo (rn : String)
  deriving DecidableEq, Repr

/-- Observable events of a run, in chronological order: remote API
requests (`getRepoCall` = `GET /repos/{owner}/{repo}`, `listCall` =
`repo.get_contents(path, ref=...)`, `blobCall` = the file-content fetch),
local filesystem effects, and notices. -/
inductive Ev where
  | getRepoCall (origin : String)
  | listCall (ref : Option String) (path : List String)
  | blobCall (ref : Option String) (path : List String)
  | mkdir (path : List String)
  | write (path : List String) (flag : Nat) (payload : Payload)
  | notice (msg : Msg)
  deriving DecidableEq, Repr

/-- Is the event a remote API request? -/
def Ev.isRemote : Ev → Bool
  | .getRepoCall _ => true
  | .listCall _ _ => true
  | .blobCall _ _ => true
  | _ => false

/-- Run state: the filesystem plus the chronological event log. -/
structure St where
  fs : FS
  evs : List Ev
  deriving DecidableEq, Repr

/-- Append events to the log. -/
def addEvs (st : St) (l : List Ev) : St :=
  { st with evs := st.evs ++ l }

/-- Last data written to a path within an event segment (the data a file
holds after the segment replays over a filesystem; the log is
chronological, so later events win). -/
def lastWrite : List Ev → List String → Option (Nat × Payload)
  | [], _ => none
  | (.write q fl pl) :: rest, p =>
    (lastWrite rest p).or (if q = p then some (fl, pl) else none)
  | _ :: rest, p => lastWrite rest p

/-- Path-prefix test (`pfxOf a b` iff `a` is a leading segment list of
`b`; a directory `a` covers everything under it). -/
def pfxOf : List String → List String → Bool
  | [], _ => true
  | _ :: _, [] => false
  | a :: as, b :: bs => a = b && pfxOf as bs

/-- Every `write` in the log is preceded by a `mkdir` covering the
written file's parent directory (`created` accumulates the directories
made so far; `mkdir` has `parents=True`, so it creates every ancestor of
its argument). -/
def writesCovered : List Ev → List (List String) → Bool
  | [], _ => true
  | (.write p _ _) :: rest, created =>
    created.any (fun q => pfxOf p.dropLast q) && writesCovered rest created
  | (.mkdir q) :: rest, created => writesCovered rest (q :: created)
  | _ :: rest, created => writesCovered rest created

/-- The directories the `mkdir` events of a log segment create, newest
first, on top of previously created ones. -/
def mkAcc : List Ev → List (List String) → List (List String)
  | [], c => c
  | (.mkdir q) :: rest, c => mkAcc rest (q :: c)
  | _ :: rest, c => mkAcc rest c

/-! ## `clone_repo` / `process_content` (src/utils.py lines 188-242)

The walk carries the state and stops at the first exception, which is
returned alongside the state reached so far (Python: the exception
propagates, the filesystem keeps whatever was already written).

`process_content` on a `dir` entry logs its notice, creates the local
directory, then lists the directory via `get_repo_content(repo_origin,
content.path)` — one `get_repo` request plus one listing request, with
`ref` left `NotSet` (`none`), i.e. resolved against the default branch —
and recurses.  On a `file` entry it logs the notice, fetches the blob via
`get_file_content(repo_origin, content.path)` — one `get_repo` request
plus one content request, again without `ref` — decodes it with
`decode_content`, and writes text (`'w'`, UTF-8) or binary (`'wb'`)
according to the decode flag.

`fuel` bounds the recursion depth so that the model is a total function;
it decreases at every step, so any completed walk (`none` outcome) was
unaffected by it. -/

/-- The recursive walk over a list of entries (`(full path, is-dir)`), as
the loop at the bottom of `clone_repo` / the recursion inside
`process_content` performs it. -/
def processList (R : Remote) (origin rn : String) :
    Nat → List (List String × Bool) → St → St × Option Exn
  | _, [], st => (st, none)
  | 0, _ :: _, st => (st, some .fuelOut)
  | Nat.succ fuel, (p, isDir) :: es, st =>
    if isDir then
      let st1 : St :=
        { fs := mkdirP st.fs (rn :: p),
          evs := st.evs ++
            [.notice (.processingDir p), .mkdir (rn :: p),
             .getRepoCall origin, .listCall none p] }
      match subtreeAt (R none) p with
      | none => (st1, some .notFound)
      | some td =>
        match processList R origin rn fuel (listingOf p td) st1 with
        | (st2, none) => processList R origin rn fuel es st2
        | (st2, some e) => (st2, some e)
    else
      let st1 : St := addEvs st
        [.notice (.processingFile p), .getRepoCall origin, .blobCall none p]
      match blobAt (R none) p with
      | .error e => (st1, some e)
      | .ok b =>
        match decode_content b with
        | .error _ => (st1, some .decodeErr)
        | .ok (pl, fl) =>
          if (rn :: p).dropLast ∈ st1.fs.dirs then
            processList R origin rn fuel es
              { fs := writeFile st1.fs (rn :: p) fl pl,
                evs := st1.evs ++ [.write (rn :: p) fl pl] }
          else (st1, some .localErr)

/-- Does a local path exist (`Path(repo_name).exists()`)? -/
def pathExists (fs : FS) (p : List String) : Bool :=
  decide (p ∈ fs.dirs) || (lookupA fs.files p).isSome

/-- Model of `clone_repo`.  `origin` and `rn` are the resolved
`repo_origin` and `repo_name` (lines 200-203 derive one from the other).
Lines 204-205 fetch the repository and its root listing (at `ref`)
*before* the destination-existence check of lines 232-238. -/
def cloneRepo (R : Remote) (fuel : Nat) (origin rn : String)
    (ref : Option String) (overwrite : Bool) (st : St) : St × Option Exn :=
  let st2 := addEvs st [.getRepoCall origin, .listCall ref []]
  let contents := listingOf [] (R ref)
  if pathExists st2.fs [rn] ∧ overwrite = false then
    (addEvs st2 [.notice (.skipExisting rn)], none)
  else
    let st3 :=
      if pathExists st2.fs [rn] then addEvs st2 [.notice (.overwriteExisting rn)]
      else st2
    let st4 : St :=
      { fs := mkdirP st3.fs [rn],
        evs := st3.evs ++ [.mkdir [rn], .notice (.processingRepo rn)] }
    processList R origin rn fuel contents st4

/-- The local file paths (relative to the clone root) a single walk entry
can produce writes at: a file entry writes exactly its own path, a
directory entry anything inside the subtree the default branch holds at
its path. -/
def entryFilesR (R : Remote) : (List String × Bool) → List (List String)
  | (p, false) => [p]
  | (p, true) =>
    match subtreeAt (R none) p with
    | some t => (subtreeFiles t).map (p ++ ·)
    | none => []

/-- `entryFilesR` over a list of entries. -/
def entriesFilesR (R : Remote) : List (List String × Bool) → List (List String)
  | [] => []
  | e :: es => entryFilesR R e ++ entriesFilesR R es

/-! ## `get_user_info` (src/utils.py lines 156-186) -/

/-- Remote data of one repository of a user (the name plus the results
the issues/pull-requests listings would return with `state="all"`). -/
structure RepoInfo where
  name : String
  issues : List Nat
  pulls : List Nat
  deriving DecidableEq, Repr

/-- Remote data of a user: id, gists and the repositories that
`user.get_repos(type="sources", direction="desc", sort="updated")`
returns, in that order. -/
structure RUser where
  id : Nat
  gists : List Nat
  repos : List RepoInfo
  deriving DecidableEq, Repr

/-- Upstream requests `get_user_info` can make. -/
inductive UCall where
  | getUser (u : String)
  | listGists
  | listRepos
  | listIssues (repo : String)
  | listPulls (repo : String)
  | listFollowers
  | listFollowing
  deriving DecidableEq, Repr

/-- The `User` record `get_user_info` builds (src/models/users.py). -/
structure UserModel where
  id : Nat
  gists : PyIter Nat
  repos : PyIter RepoInfo
  followings : List Nat
  followers : List Nat
  user_repo_issues : List (String × List Nat)
  user_repo_pull_requests : List (String × List Nat)
  deriving DecidableEq, Repr

/-- Model of `get_user_info`: fetch gists and repos, gather issues and
pull requests over the *full* repo list, apply `limiter` to gists and
repos only, and return empty placeholder follower/following lists.  The
second component is the list of upstream requests made, in order. -/
def get_user_info (u : RUser) (uname : String) (limit : Option Int) :
    UserModel × List UCall :=
  ({ id := u.id
   , gists := limiter (.list u.gists) limit
   , repos := limiter (.list u.repos) limit
   , followings := []
   , followers := []
   , user_repo_issues := u.repos.foldl (fun m r => setAssoc m r.name r.issues) []
   , user_repo_pull_requests := u.repos.foldl (fun m r => setAssoc m r.name r.pulls) [] },
   [.getUser uname, .listGists, .listRepos] ++
     u.repos.foldr (fun r acc => .listIssues r.name :: .listPulls r.name :: acc) [])


/-! # Theorems

First the supporting lemmas about the standard-library models (base64 and
UTF-8 round trips, Python slicing), then the claim theorems. -/

/-! ## Base64 round trip -/

theorem b64Val_b64Char : ∀ i < 64, b64Val (b64Char i) = some i := by decide

theorem b64Val_pad_eq_none : b64Val '=' = none := by decide

theorem b64Vals_lt (bs : List Nat) (h : ∀ b ∈ bs, b < 256) : ∀ v ∈ b64Vals bs, v < 64 := by
  induction bs using b64Vals.induct with
  | case1 => simp [b64Vals]
  | case2 b0 =>
    have := h b0 (by simp)
    simp only [b64Vals, List.mem_cons, List.not_mem_nil, or_false]
    rintro v (rfl | rfl) <;> omega
  | case3 b0 b1 =>
    have h0 := h b0 (by simp); have h1 := h b1 (by simp)
    simp only [b64Vals, List.mem_cons, List.not_mem_nil, or_false]
    rintro v (rfl | rfl | rfl) <;> omega
  | case4 b0 b1 b2 rest ih =>
    have h0 := h b0 (by simp); have h1 := h b1 (by simp); have h2 := h b2 (by simp)
    simp only [b64Vals, List.mem_cons]
    rintro v (rfl | rfl | rfl | rfl | hv)
    · omega
    · omega
    · omega
    · omega
    · exact ih (fun b hb => h b (by simp [hb])) v hv

theorem b64Char_ne_pad : ∀ v < 64, b64Char v ≠ '=' := by decide

theorem b64Char_ascii : ∀ v < 64, (b64Char v).toNat < 128 := by decide

theorem b64Run_nil (lc pads : Nat) (out : List Nat) :
    b64Run [] 0 lc pads out = .ok out := rfl

theorem b64Run_data (c : Char) (rest : List Char) (qp lc pads : Nat) (out : List Nat)
    (v : Nat) (hne : c ≠ '=') (hv : b64Val c = some v) :
    b64Run (c :: rest) qp lc pads out =
      (match qp with
       | 0 => b64Run rest 1 v 0 out
       | 1 => b64Run rest 2 (v % 16) 0 (out ++ [lc * 4 + v / 16])
       | 2 => b64Run rest 3 (v % 4) 0 (out ++ [lc * 16 + v / 4])
       | _ => b64Run rest 0 0 0 (out ++ [lc * 64 + v])) := by
  simp only [b64Run, if_neg hne, hv]

theorem b64Run_pad_cont (rest : List Char) (lc : Nat) (out : List Nat) :
    b64Run ('=' :: rest) 2 lc 0 out = b64Run rest 2 lc 1 out := rfl

theorem b64Run_pad_done2 (rest : List Char) (lc : Nat) (out : List Nat) :
    b64Run ('=' :: rest) 2 lc 1 out = .ok out := rfl

theorem b64Run_pad_done3 (rest : List Char) (lc pads : Nat) (out : List Nat) :
    b64Run ('=' :: rest) 3 lc pads out = .ok out := by
  simp only [b64Run]
  rw [if_pos (show (4 : Nat) ≤ 3 + (pads + 1) from by omega)]
  simp

/-- Running the scanner over the canonical encoding of `bs` appends `bs`
to the output accumulated so far. -/
theorem b64Run_encode (bs : List Nat) (h : ∀ b ∈ bs, b < 256) : ∀ acc : List Nat,
    b64Run ((b64Vals bs).map b64Char ++ List.replicate (b64PadCount bs) '=') 0 0 0 acc =
      .ok (acc ++ bs) := by
  induction bs using b64Vals.induct with
  | case1 => intro acc; simp [b64Vals, b64PadCount, b64Run_nil]
  | case2 b0 =>
    intro acc
    have h0 := h b0 (by simp)
    have hv0 : b0 / 4 < 64 := by omega
    have hv1 : b0 % 4 * 16 < 64 := by omega
    simp only [b64Vals, b64PadCount, List.map_cons, List.map_nil, List.cons_append,
      List.nil_append, List.replicate]
    rw [b64Run_data _ _ _ _ _ _ _ (b64Char_ne_pad _ hv0) (b64Val_b64Char _ hv0)]
    simp only []
    rw [b64Run_data _ _ _ _ _ _ _ (b64Char_ne_pad _ hv1) (b64Val_b64Char _ hv1)]
    simp only []
    rw [show b0 / 4 * 4 + b0 % 4 * 16 / 16 = b0 from by omega,
      show b0 % 4 * 16 % 16 = 0 from by omega,
      b64Run_pad_cont, b64Run_pad_done2]
  | case3 b0 b1 =>
    intro acc
    have h0 := h b0 (by simp); have h1 := h b1 (by simp)
    have hv0 : b0 / 4 < 64 := by omega
    have hv1 : b0 % 4 * 16 + b1 / 16 < 64 := by omega
    have hv2 : b1 % 16 * 4 < 64 := by omega
    simp only [b64Vals, b64PadCount, List.map_cons, List.map_nil, List.cons_append,
      List.nil_append, List.replicate]
    rw [b64Run_data _ _ _ _ _ _ _ (b64Char_ne_pad _ hv0) (b64Val_b64Char _ hv0)]
    simp only []
    rw [b64Run_data _ _ _ _ _ _ _ (b64Char_ne_pad _ hv1) (b64Val_b64Char _ hv1)]
    simp only []
    rw [b64Run_data _ _ _ _ _ _ _ (b64Char_ne_pad _ hv2) (b64Val_b64Char _ hv2)]
    simp only []
    rw [show b0 / 4 * 4 + (b0 % 4 * 16 + b1 / 16) / 16 = b0 from by omega,
      show (b0 % 4 * 16 + b1 / 16) % 16 * 16 + b1 % 16 * 4 / 4 = b1 from by omega,
      b64Run_pad_done3]
    simp
  | case4 b0 b1 b2 rest ih =>
    intro acc
    have h0 := h b0 (by simp); have h1 := h b1 (by simp); have h2 := h b2 (by simp)
    have hv0 : b0 / 4 < 64 := by omega
    have hv1 : b0 % 4 * 16 + b1 / 16 < 64 := by omega
    have hv2 : b1 % 16 * 4 + b2 / 64 < 64 := by omega
    have hv3 : b2 % 64 < 64 := by omega
    simp only [b64Vals, b64PadCount, List.map_cons, List.cons_append]
    rw [b64Run_data _ _ _ _ _ _ _ (b64Char_ne_pad _ hv0) (b64Val_b64Char _ hv0)]
    simp only []
    rw [b64Run_data _ _ _ _ _ _ _ (b64Char_ne_pad _ hv1) (b64Val_b64Char _ hv1)]
    simp only []
    rw [b64Run_data _ _ _ _ _ _ _ (b64Char_ne_pad _ hv2) (b64Val_b64Char _ hv2)]
    simp only []
    rw [b64Run_data _ _ _ _ _ _ _ (b64Char_ne_pad _ hv3) (b64Val_b64Char _ hv3)]
    simp only []
    rw [show b0 / 4 * 4 + (b0 % 4 * 16 + b1 / 16) / 16 = b0 from by omega,
      show (b0 % 4 * 16 + b1 / 16) % 16 * 16 + (b1 % 16 * 4 + b2 / 64) / 4 = b1
        from by omega,
      show (b1 % 16 * 4 + b2 / 64) % 4 * 64 + b2 % 64 = b2 from by omega]
    rw [ih (fun b hb => h b (by simp [hb])) (acc ++ [b0] ++ [b1] ++ [b2])]
    simp

/-- Decoding a canonical base64 encoding recovers the original bytes
(the `b64decode(b64encode(bs)) == bs` law the Content Decoder relies on). -/
theorem b64decode_b64encode (bs : List Nat) (h : ∀ b ∈ bs, b < 256) :
    b64decode (b64encode bs) = .ok bs := by
  have hvals := b64Vals_lt bs h
  unfold b64decode b64encode
  rw [if_pos ?hascii]
  case hascii =>
    rw [List.all_eq_true]
    intro c hc
    rcases List.mem_append.mp hc with hc | hc
    · obtain ⟨v, hv, rfl⟩ := List.mem_map.mp hc
      simpa using b64Char_ascii v (hvals v hv)
    · rw [List.eq_of_mem_replicate hc]
      decide
  exact (b64Run_encode bs h []).trans (by simp)

/-! ## UTF-8 round trip -/

theorem utf8Need_one {b : Nat} (h : utf8Need b = 1) : b < 128 := by
  unfold utf8Need at h; split_ifs at h <;> omega

theorem utf8Need_two {b : Nat} (h : utf8Need b = 2) : 194 ≤ b ∧ b < 224 := by
  unfold utf8Need at h; split_ifs at h <;> omega

theorem utf8Need_three {b : Nat} (h : utf8Need b = 3) : 224 ≤ b ∧ b < 240 := by
  unfold utf8Need at h; split_ifs at h <;> omega

theorem utf8Need_four {b : Nat} (h : utf8Need b = 4) : 240 ≤ b ∧ b < 245 := by
  unfold utf8Need at h; split_ifs at h <;> omega

/-- Re-encoding a successfully decoded byte string reproduces it exactly
(Python's strict UTF-8 codec: `decoded.encode('utf-8') == original`). -/
theorem utf8Encode_of_decode (bs : List Nat) :
    ∀ cs, utf8Decode bs = some cs → utf8Encode cs = bs := by
  induction bs using utf8Decode.induct with
  | case1 =>
    intro cs hcs
    simp only [utf8Decode, Option.some.injEq] at hcs
    simp [← hcs, utf8Encode]
  | case2 b r hneed ih =>
    intro cs hcs
    have hb := utf8Need_one hneed
    simp only [utf8Decode, hneed, Option.map_eq_some'] at hcs
    obtain ⟨cs', hdec, rfl⟩ := hcs
    rw [utf8Encode, ih cs' hdec, utf8EncodeChar, if_pos hb]
    rfl
  | case3 b b1 r hneed hok ih =>
    intro cs hcs
    have hb := utf8Need_two hneed
    simp only [utf8Decode, hneed, hok, if_true, Option.map_eq_some'] at hcs
    obtain ⟨cs', hdec, rfl⟩ := hcs
    simp only [utf8Ok2, utf8Cont, Bool.and_eq_true, decide_eq_true_eq] at hok
    rw [utf8Encode, ih cs' hdec, utf8EncodeChar, utf8Cp2,
      if_neg (by omega), if_pos (by omega)]
    simp only [List.cons_append, List.nil_append, List.cons.injEq]
    exact ⟨by omega, by omega, trivial⟩
  | case4 b b1 r hneed hok =>
    intro cs hcs
    simp [utf8Decode, hneed, hok] at hcs
  | case5 b b1 b2 r hneed hok ih =>
    intro cs hcs
    have hb := utf8Need_three hneed
    simp only [utf8Decode, hneed, hok, if_true, Option.map_eq_some'] at hcs
    obtain ⟨cs', hdec, rfl⟩ := hcs
    rw [utf8Ok3, Bool.and_eq_true] at hok
    obtain ⟨hif, hcont2⟩ := hok
    simp only [utf8Cont, Bool.and_eq_true, decide_eq_true_eq] at hcont2
    have hb1 : (b = 224 ∧ 160 ≤ b1 ∧ b1 < 192) ∨ (b = 237 ∧ 128 ≤ b1 ∧ b1 < 160) ∨
        (b ≠ 224 ∧ b ≠ 237 ∧ 128 ≤ b1 ∧ b1 < 192) := by
      split_ifs at hif with he0 hed
      · simp only [Bool.and_eq_true, decide_eq_true_eq] at hif
        exact Or.inl ⟨he0, hif⟩
      · simp only [Bool.and_eq_true, decide_eq_true_eq] at hif
        exact Or.inr (Or.inl ⟨hed, hif⟩)
      · simp only [utf8Cont, Bool.and_eq_true, decide_eq_true_eq] at hif
        exact Or.inr (Or.inr ⟨he0, hed, hif⟩)
    rw [utf8Encode, ih cs' hdec, utf8EncodeChar, utf8Cp3,
      if_neg (by omega), if_neg (by omega), if_pos (by omega)]
    simp only [List.cons_append, List.nil_append, List.cons.injEq]
    exact ⟨by omega, by omega, by omega, trivial⟩
  | case6 b b1 b2 r hneed hok =>
    intro cs hcs
    simp [utf8Decode, hneed, hok] at hcs
  | case7 b b1 b2 b3 r hneed hok ih =>
    intro cs hcs
    have hb := utf8Need_four hneed
    simp only [utf8Decode, hneed, hok, if_true, Option.map_eq_some'] at hcs
    obtain ⟨cs', hdec, rfl⟩ := hcs
    rw [utf8Ok4, Bool.and_eq_true] at hok
    obtain ⟨hif, hcont3⟩ := hok
    rw [Bool.and_eq_true] at hif
    obtain ⟨hif, hcont2⟩ := hif
    simp only [utf8Cont, Bool.and_eq_true, decide_eq_true_eq] at hcont2 hcont3
    have hb1 : (b = 240 ∧ 144 ≤ b1 ∧ b1 < 192) ∨ (b = 244 ∧ 128 ≤ b1 ∧ b1 < 144) ∨
        (b ≠ 240 ∧ b ≠ 244 ∧ 128 ≤ b1 ∧ b1 < 192) := by
      split_ifs at hif with he0 hed
      · simp only [Bool.and_eq_true, decide_eq_true_eq] at hif
        exact Or.inl ⟨he0, hif⟩
      · simp only [Bool.and_eq_true, decide_eq_true_eq] at hif
        exact Or.inr (Or.inl ⟨hed, hif⟩)
      · simp only [utf8Cont, Bool.and_eq_true, decide_eq_true_eq] at hif
        exact Or.inr (Or.inr ⟨he0, hed, hif⟩)
    rw [utf8Encode, ih cs' hdec, utf8EncodeChar, utf8Cp4,
      if_neg (by omega), if_neg (by omega), if_neg (by omega)]
    simp only [List.cons_append, List.nil_append, List.cons.injEq]
    exact ⟨by omega, by omega, by omega, by omega, trivial⟩
  | case8 b b1 b2 b3 r hneed hok =>
    intro cs hcs
    simp [utf8Decode, hneed, hok] at hcs
  | case9 b rest h1 h2 h3 h4 =>
    intro cs hcs
    have hn : utf8Need b = 0 ∨ utf8Need b = 1 ∨ utf8Need b = 2 ∨ utf8Need b = 3 ∨
        utf8Need b = 4 := by unfold utf8Need; split_ifs <;> omega
    rcases hn with hn | hn | hn | hn | hn
    · simp [utf8Decode, hn] at hcs
    · exact absurd hn h1
    · rcases rest with _ | ⟨b1, r⟩
      · simp [utf8Decode, hn] at hcs
      · exact absurd rfl (h2 b1 r hn)
    · rcases rest with _ | ⟨b1, _ | ⟨b2, r⟩⟩
      · simp [utf8Decode, hn] at hcs
      · simp [utf8Decode, hn] at hcs
      · exact absurd rfl (h3 b1 b2 r hn)
    · rcases rest with _ | ⟨b1, _ | ⟨b2, _ | ⟨b3, r⟩⟩⟩
      · simp [utf8Decode, hn] at hcs
      · simp [utf8Decode, hn] at hcs
      · simp [utf8Decode, hn] at hcs
      · exact absurd rfl (h4 b1 b2 b3 r hn)


/-! ## Claims C4 and C5 — the Content Decoder -/

/-- Claim C4, counterexample: `decode_content` *can* raise.  On the input
`"a"` (one base64 data character, which `base64.b64decode` rejects with
`binascii.Error`), the `except` branch calls `b64decode` again, the same
exception is raised again and escapes — the claim's "for every input
string, decode_content never raises" is false. -/
theorem claim_C4_counterexample : decode_content "a" = Except.error () := by decide

/-- Claim C4 (amended): for every input string that `base64.b64decode`
accepts (pure ASCII and passing the padding check), `decode_content`
never raises, and a UTF-8 decoding failure is reported by returning the
raw decoded bytes with flag 0 rather than by an exception escaping.  On
a string `b64decode` rejects (non-ASCII: `ValueError`; bad padding:
`binascii.Error`) the `except` branch re-calls `b64decode` and the same
exception escapes. -/
theorem claim_C4 (s : String) (bs : List Nat) (h : b64decode s = .ok bs) :
    (∃ pf, decode_content s = Except.ok pf) ∧
    (utf8Decode bs = none → decode_content s = Except.ok (Payload.binary bs, 0)) := by
  rcases Option.eq_none_or_eq_some (utf8Decode bs) with hdec | ⟨cps, hdec⟩
  · refine ⟨⟨(.binary bs, 0), ?_⟩, fun _ => ?_⟩ <;> simp [decode_content, h, hdec]
  · refine ⟨⟨(.text cps, 1), ?_⟩, fun hc => ?_⟩
    · simp [decode_content, h, hdec]
    · rw [hc] at hdec; cases hdec

/-- Witness for `claim_C4` at the concrete input `"/w=="` (valid base64
of the non-UTF-8 byte `0xFF`). -/
theorem claim_C4_witness :
    b64decode "/w==" = .ok [255] ∧
    ((∃ pf, decode_content "/w==" = Except.ok pf) ∧
     (utf8Decode [255] = none → decode_content "/w==" = Except.ok (Payload.binary [255], 0))) :=
  ⟨by decide, claim_C4 "/w==" [255] (by decide)⟩

/-- Claim C5: for every base64 encoding of bytes that are valid UTF-8,
`decode_content` returns the decoded text with flag 1, and re-encoding
that text as UTF-8 yields the original bytes; for every base64 encoding
of bytes that are not valid UTF-8, it returns the raw bytes with flag 0. -/
theorem claim_C5 (bs : List Nat) (hb : ∀ b ∈ bs, b < 256) :
    (∀ cs, utf8Decode bs = some cs →
      decode_content (b64encode bs) = Except.ok (Payload.text cs, 1) ∧ utf8Encode cs = bs) ∧
    (utf8Decode bs = none → decode_content (b64encode bs) = Except.ok (Payload.binary bs, 0)) := by
  constructor
  · intro cs hcs
    refine ⟨?_, utf8Encode_of_decode bs cs hcs⟩
    simp [decode_content, b64decode_b64encode bs hb, hcs]
  · intro hn
    simp [decode_content, b64decode_b64encode bs hb, hn]

/-- Witness for `claim_C5` at the concrete bytes `"hi"` = `[104, 105]`. -/
theorem claim_C5_witness :
    (∀ b ∈ [104, 105], b < 256) ∧
    (decode_content (b64encode [104, 105]) = Except.ok (Payload.text [104, 105], 1) ∧
     utf8Encode [104, 105] = [104, 105]) :=
  ⟨by decide, (claim_C5 [104, 105] (by decide)).1 [104, 105] (by decide)⟩

/-! ## Claims C6 and C7 — the Result Limiter -/

/-- Claim C6, counterexample: for the *negative* integer limit `-1`,
`limiter([0,1,2], -1)` is `[0,1]` (Python slice `[:-1]` drops the last
element), not the "first `min(n, L)` elements" (which clamps to `[]`) —
so the claim does not hold for every integer limit. -/
theorem claim_C6_counterexample :
    ¬ (limiter (PyIter.list [0, 1, 2]) (some (-1)) =
       PyIter.list (List.take (min (-1 : Int) 3).toNat [0, 1, 2])) := by decide

/-- Claim C6 (amended): for every concrete list and every *nonnegative*
integer limit `n`, `limiter` returns the first `min(n, L)` elements in
order; for every input, `limiter` with limit `None` returns the input
unchanged. -/
theorem claim_C6 {α : Type} (xs : List α) (n : Int) (hn : 0 ≤ n) :
    limiter (PyIter.list xs) (some n) = PyIter.list (xs.take (min n.toNat xs.length)) ∧
    ∀ (d : PyIter α), limiter d none = d := by
  constructor
  · show PyIter.list (pySliceTo xs n) = _
    unfold pySliceTo
    rw [if_pos hn]
    congr 1
    rcases Nat.le_total n.toNat xs.length with h | h
    · rw [Nat.min_eq_left h]
    · rw [Nat.min_eq_right h, List.take_length, List.take_of_length_le h]
  · intro d; rfl

/-- Witness for `claim_C6` at `[5,6,7]` with limit `2`. -/
theorem claim_C6_witness :
    (0 : Int) ≤ 2 ∧
    (limiter (PyIter.list [5, 6, 7]) (some 2) =
       PyIter.list (List.take (min (Int.toNat 2) 3) [5, 6, 7]) ∧
     ∀ (d : PyIter Nat), limiter d none = d) :=
  ⟨by decide, claim_C6 [5, 6, 7] 2 (by decide)⟩

/-- Claim C7: for every iterable input that is not a concrete list,
`limiter` returns the input unchanged even when a numeric limit is
supplied — only list-typed inputs are ever truncated. -/
theorem claim_C7 {α : Type} (tag : Nat) (lim : Option Int) :
    limiter (PyIter.other tag : PyIter α) lim = PyIter.other tag := by
  cases lim <;> rfl

/-! ## Claim C10 — the User Aggregator -/

theorem lookupA_setAssoc {κ ν : Type} [DecidableEq κ] (m : List (κ × ν)) (k k' : κ) (v : ν) :
    lookupA (setAssoc m k v) k' = if k = k' then some v else lookupA m k' := by
  induction m with
  | nil => simp [setAssoc, lookupA]
  | cons kv rest ih =>
    obtain ⟨k0, v0⟩ := kv
    by_cases h0 : k0 = k
    · subst h0
      simp only [setAssoc, if_pos rfl, lookupA]
      by_cases h1 : k0 = k'
      · subst h1; simp [lookupA]
      · simp [lookupA, h1]
    · simp only [setAssoc, if_neg h0, lookupA]
      by_cases h1 : k0 = k'
      · subst h1
        rw [if_neg (show ¬ k = k0 from fun hk => h0 hk.symm)]
        simp
      · rw [if_neg h1, if_neg h1, ih]

theorem lookupA_fold_setAssoc_notin (repos : List RepoInfo) (f : RepoInfo → List Nat)
    (m0 : List (String × List Nat)) (k : String) (hk : k ∉ repos.map RepoInfo.name) :
    lookupA (repos.foldl (fun m x => setAssoc m x.name (f x)) m0) k = lookupA m0 k := by
  induction repos generalizing m0 with
  | nil => rfl
  | cons x rest ih =>
    simp only [List.map_cons, List.mem_cons, not_or] at hk
    rw [List.foldl_cons, ih _ hk.2, lookupA_setAssoc, if_neg (fun h => hk.1 h.symm)]

theorem lookupA_fold_setAssoc (repos : List RepoInfo) (f : RepoInfo → List Nat)
    (m0 : List (String × List Nat)) (hnd : (repos.map RepoInfo.name).Nodup) :
    ∀ r ∈ repos,
      lookupA (repos.foldl (fun m x => setAssoc m x.name (f x)) m0) r.name = some (f r) := by
  induction repos generalizing m0 with
  | nil => intro r hr; cases hr
  | cons x rest ih =>
    simp only [List.map_cons, List.nodup_cons] at hnd
    intro r hr
    rcases List.mem_cons.mp hr with rfl | hr'
    · rw [List.foldl_cons, lookupA_fold_setAssoc_notin rest f _ r.name hnd.1,
        lookupA_setAssoc, if_pos rfl]
    · exact ih _ hnd.2 r hr'

theorem mem_issuesPullsCalls (repos : List RepoInfo) (c : UCall)
    (hc : c ∈ repos.foldr
      (fun r acc => UCall.listIssues r.name :: UCall.listPulls r.name :: acc) []) :
    (∃ s, c = UCall.listIssues s) ∨ (∃ s, c = UCall.listPulls s) := by
  induction repos with
  | nil => cases hc
  | cons x rest ih =>
    simp only [List.foldr_cons, List.mem_cons] at hc
    rcases hc with rfl | rfl | hc
    · exact Or.inl ⟨x.name, rfl⟩
    · exact Or.inr ⟨x.name, rfl⟩
    · exact ih hc

/-- Claim C10, counterexample: for the *negative* limit `-1`, the gists
field keeps `1` element out of 2 (Python `[:-1]`), which is not
"at most n = -1" — the claim fails for every-numeric-limit generality. -/
theorem claim_C10_counterexample :
    ¬ ((pyLen (get_user_info ⟨7, [10, 20], []⟩ "alice" (some (-1))).1.gists : Int) ≤ -1) := by
  decide

/-- Claim C10 (amended): for every username, every *nonnegative* numeric
limit `n` and every user whose repositories have distinct names (the
GitHub invariant), `get_user_info` returns at most `n` gists and at most
`n` repos, `user_repo_issues`/`user_repo_pull_requests` have one entry
for every repository the user's (uncapped) repository listing returns,
and `followers`/`followings` are empty with no upstream calls for them. -/
theorem claim_C10 (u : RUser) (uname : String) (n : Int) (hn : 0 ≤ n)
    (hnames : (u.repos.map RepoInfo.name).Nodup) :
    (∃ gl, (get_user_info u uname (some n)).1.gists = PyIter.list gl ∧ gl.length ≤ n.toNat) ∧
    (∃ rl, (get_user_info u uname (some n)).1.repos = PyIter.list rl ∧ rl.length ≤ n.toNat) ∧
    (∀ r ∈ u.repos,
      lookupA (get_user_info u uname (some n)).1.user_repo_issues r.name = some r.issues ∧
      lookupA (get_user_info u uname (some n)).1.user_repo_pull_requests r.name = some r.pulls) ∧
    (get_user_info u uname (some n)).1.followers = [] ∧
    (get_user_info u uname (some n)).1.followings = [] ∧
    UCall.listFollowers ∉ (get_user_info u uname (some n)).2 ∧
    UCall.listFollowing ∉ (get_user_info u uname (some n)).2 := by
  have hlen : ∀ (xs : List Nat), (pySliceTo xs n).length ≤ n.toNat := by
    intro xs
    unfold pySliceTo
    rw [if_pos hn, List.length_take]
    exact Nat.min_le_left _ _
  refine ⟨⟨pySliceTo u.gists n, rfl, ?_⟩, ⟨pySliceTo u.repos n, rfl, ?_⟩, ?_, rfl, rfl, ?_, ?_⟩
  · exact hlen u.gists
  · unfold pySliceTo
    rw [if_pos hn, List.length_take]
    exact Nat.min_le_left _ _
  · intro r hr
    exact ⟨lookupA_fold_setAssoc u.repos RepoInfo.issues [] hnames r hr,
      lookupA_fold_setAssoc u.repos RepoInfo.pulls [] hnames r hr⟩
  · intro hmem
    simp only [get_user_info, List.mem_append, List.mem_cons, List.not_mem_nil] at hmem
    rcases hmem with (h | h | h | h) | h
    · cases h
    · cases h
    · cases h
    · cases h
    · rcases mem_issuesPullsCalls u.repos _ h with ⟨s, hs⟩ | ⟨s, hs⟩ <;> cases hs
  · intro hmem
    simp only [get_user_info, List.mem_append, List.mem_cons, List.not_mem_nil] at hmem
    rcases hmem with (h | h | h | h) | h
    · cases h
    · cases h
    · cases h
    · cases h
    · rcases mem_issuesPullsCalls u.repos _ h with ⟨s, hs⟩ | ⟨s, hs⟩ <;> cases hs

/-- Witness for `claim_C10`: a user with two gists and one repository,
limit `1`. -/
theorem claim_C10_witness :
    ((0 : Int) ≤ 1 ∧ ((List.map RepoInfo.name [⟨"r1", [4], [5]⟩]).Nodup)) ∧
    ((∃ gl, (get_user_info ⟨7, [10, 20], [⟨"r1", [4], [5]⟩]⟩ "alice" (some 1)).1.gists =
        PyIter.list gl ∧ gl.length ≤ (1 : Int).toNat) ∧
     (∃ rl, (get_user_info ⟨7, [10, 20], [⟨"r1", [4], [5]⟩]⟩ "alice" (some 1)).1.repos =
        PyIter.list rl ∧ rl.length ≤ (1 : Int).toNat) ∧
     (∀ r ∈ ([⟨"r1", [4], [5]⟩] : List RepoInfo),
       lookupA (get_user_info ⟨7, [10, 20],
         [⟨"r1", [4], [5]⟩]⟩ "alice" (some 1)).1.user_repo_issues r.name = some r.issues ∧
       lookupA (get_user_info ⟨7, [10, 20],
         [⟨"r1", [4], [5]⟩]⟩ "alice" (some 1)).1.user_repo_pull_requests r.name = some r.pulls) ∧
     (get_user_info ⟨7, [10, 20], [⟨"r1", [4], [5]⟩]⟩ "alice" (some 1)).1.followers = [] ∧
     (get_user_info ⟨7, [10, 20], [⟨"r1", [4], [5]⟩]⟩ "alice" (some 1)).1.followings = [] ∧
     UCall.listFollowers ∉ (get_user_info ⟨7, [10, 20], [⟨"r1", [4], [5]⟩]⟩ "alice" (some 1)).2 ∧
     UCall.listFollowing ∉ (get_user_info ⟨7, [10, 20], [⟨"r1", [4], [5]⟩]⟩ "alice" (some 1)).2) :=
  ⟨⟨by decide, by decide⟩,
    claim_C10 ⟨7, [10, 20], [⟨"r1", [4], [5]⟩]⟩ "alice" 1 (by decide) (by decide)⟩


/-! ## Supporting lemmas for the clone walk -/
theorem pfxOf_refl (l : List String) : pfxOf l l = true := by
  induction l with
  | nil => rfl
  | cons a as ih => simp [pfxOf, ih]

theorem pathSegs_pfxOf (p : List String) : ∀ d ∈ pathSegs p, pfxOf d p = true := by
  induction p with
  | nil => intro d hd; cases hd
  | cons x rest ih =>
    intro d hd
    rcases List.mem_cons.mp hd with rfl | hd'
    · simp [pfxOf]
    · obtain ⟨d', hmem, rfl⟩ := List.mem_map.mp hd'
      simp [pfxOf, ih d' hmem]

theorem pathSegs_self (p : List String) (h : p ≠ []) : p ∈ pathSegs p := by
  induction p with
  | nil => exact absurd rfl h
  | cons x rest ih =>
    rcases rest with _ | ⟨y, r⟩
    · simp [pathSegs]
    · simp only [pathSegs, List.mem_cons]
      exact Or.inr (List.mem_map.mpr ⟨y :: r, ih (by simp), rfl⟩)

theorem files_addDir (fs : FS) (d : List String) : (addDir fs d).files = fs.files := by
  unfold addDir; split <;> rfl

theorem dirs_addDir_mono (fs : FS) (d e : List String) (h : e ∈ fs.dirs) :
    e ∈ (addDir fs d).dirs := by
  unfold addDir; split
  · exact h
  · simp [h]

theorem self_mem_addDir (fs : FS) (d : List String) : d ∈ (addDir fs d).dirs := by
  unfold addDir; split
  · assumption
  · simp

theorem files_foldl_addDir (l : List (List String)) (fs : FS) :
    (l.foldl addDir fs).files = fs.files := by
  induction l generalizing fs with
  | nil => rfl
  | cons d l ih => rw [List.foldl_cons, ih, files_addDir]

theorem dirs_foldl_addDir_mono (l : List (List String)) (fs : FS) (e : List String)
    (h : e ∈ fs.dirs) : e ∈ (l.foldl addDir fs).dirs := by
  induction l generalizing fs with
  | nil => exact h
  | cons d l ih => exact ih _ (dirs_addDir_mono fs d e h)

theorem mem_foldl_addDir (l : List (List String)) (fs : FS) (e : List String)
    (h : e ∈ l) : e ∈ (l.foldl addDir fs).dirs := by
  induction l generalizing fs with
  | nil => cases h
  | cons d l ih =>
    rcases List.mem_cons.mp h with rfl | h'
    · exact dirs_foldl_addDir_mono l _ e (self_mem_addDir fs e)
    · exact ih _ h'

theorem files_mkdirP (fs : FS) (p : List String) : (mkdirP fs p).files = fs.files :=
  files_foldl_addDir _ fs

theorem dirs_mkdirP_mono (fs : FS) (p e : List String) (h : e ∈ fs.dirs) :
    e ∈ (mkdirP fs p).dirs :=
  dirs_foldl_addDir_mono _ fs e h

theorem self_mem_mkdirP (fs : FS) (p : List String) (h : p ≠ []) :
    p ∈ (mkdirP fs p).dirs :=
  mem_foldl_addDir _ fs p (pathSegs_self p h)

theorem lastWrite_append (l1 l2 : List Ev) (p : List String) :
    lastWrite (l1 ++ l2) p = (lastWrite l2 p).or (lastWrite l1 p) := by
  induction l1 with
  | nil => simp [lastWrite, Option.or_none]
  | cons e l1 ih =>
    cases e with
    | write q fl pl =>
      simp only [List.cons_append, lastWrite, List.append_eq, ih, Option.or_assoc]
    | getRepoCall o => simpa [lastWrite] using ih
    | listCall r pa => simpa [lastWrite] using ih
    | blobCall r pa => simpa [lastWrite] using ih
    | mkdir q => simpa [lastWrite] using ih
    | notice m => simpa [lastWrite] using ih

theorem mem_mkAcc (l : List Ev) (c : List (List String)) (q : List String) :
    q ∈ mkAcc l c ↔ Ev.mkdir q ∈ l ∨ q ∈ c := by
  induction l generalizing c with
  | nil => simp [mkAcc]
  | cons e l ih =>
    cases e with
    | mkdir q' =>
      simp only [mkAcc, ih, List.mem_cons]
      constructor
      · rintro (h | rfl | h)
        · exact Or.inl (Or.inr h)
        · exact Or.inl (Or.inl rfl)
        · exact Or.inr h
      · rintro ((h | h) | h)
        · cases h; exact Or.inr (Or.inl rfl)
        · exact Or.inl h
        · exact Or.inr (Or.inr h)
    | write q' fl pl => simp [mkAcc, ih]
    | getRepoCall o => simp [mkAcc, ih]
    | listCall r pa => simp [mkAcc, ih]
    | blobCall r pa => simp [mkAcc, ih]
    | notice m => simp [mkAcc, ih]

theorem mkAcc_append (l1 l2 : List Ev) (c : List (List String)) :
    mkAcc (l1 ++ l2) c = mkAcc l2 (mkAcc l1 c) := by
  induction l1 generalizing c with
  | nil => rfl
  | cons e l1 ih => cases e <;> simp [mkAcc, ih]

theorem writesCovered_append (l1 l2 : List Ev) (c : List (List String)) :
    writesCovered (l1 ++ l2) c = (writesCovered l1 c && writesCovered l2 (mkAcc l1 c)) := by
  induction l1 generalizing c with
  | nil => simp [writesCovered, mkAcc]
  | cons e l1 ih =>
    cases e with
    | write q fl pl => simp [writesCovered, mkAcc, ih, Bool.and_assoc]
    | mkdir q => simp [writesCovered, mkAcc, ih]
    | getRepoCall o => simp [writesCovered, mkAcc, ih]
    | listCall r pa => simp [writesCovered, mkAcc, ih]
    | blobCall r pa => simp [writesCovered, mkAcc, ih]
    | notice m => simp [writesCovered, mkAcc, ih]
theorem subtreeAt_append (t : RTree) (p q : List String) :
    subtreeAt t (p ++ q) = (subtreeAt t p).bind (fun s => subtreeAt s q) := by
  induction p generalizing t with
  | nil => simp [subtreeAt]
  | cons x p ih =>
    simp only [List.cons_append, subtreeAt]
    cases t.findKid x with
    | none => rfl
    | some k =>
      cases k with
      | inl b => rfl
      | inr s => exact ih s

theorem blobAt_cons_cons (t : RTree) (n : String) (q : List String) (hq : q ≠ []) :
    blobAt t (n :: q) =
      (match t.findKid n with
       | some (.inr s) => blobAt s q
       | _ => Except.error .notFound) := by
  rcases q with _ | ⟨m, rest⟩
  · exact absurd rfl hq
  · rfl

theorem blobAt_concat (t : RTree) (d : List String) (m : String) :
    blobAt t (d ++ [m]) =
      (match subtreeAt t d with
       | some td =>
         (match td.findKid m with
          | some (.inl (.ok s)) => Except.ok s
          | some (.inl (.error _)) => Except.error .transport
          | _ => Except.error .notFound)
       | none => Except.error .notFound) := by
  induction d generalizing t with
  | nil => simp [subtreeAt, blobAt]
  | cons x d ih =>
    rw [List.cons_append, blobAt_cons_cons t x (d ++ [m]) (by simp)]
    simp only [subtreeAt]
    cases t.findKid x with
    | none => rfl
    | some k =>
      cases k with
      | inl b => rfl
      | inr s => exact ih s

theorem wfb_names_nodup (t : RTree) (h : t.wfb = true) : t.names.Nodup := by
  induction t with
  | nil => simp [RTree.names]
  | consFile n b r ih =>
    simp only [RTree.wfb, Bool.and_eq_true, Bool.not_eq_true'] at h
    simp only [RTree.names, List.nodup_cons]
    exact ⟨by simpa using h.1, ih h.2⟩
  | consDir n s r ihs ihr =>
    simp only [RTree.wfb, Bool.and_eq_true, Bool.not_eq_true'] at h
    simp only [RTree.names, List.nodup_cons]
    exact ⟨by simpa using h.1.1, ihr h.2⟩

theorem wfb_findKid_dir (t : RTree) (m : String) (s : RTree) (hw : t.wfb = true)
    (h : t.findKid m = some (.inr s)) : s.wfb = true := by
  induction t with
  | nil => cases h
  | consFile n b r ih =>
    simp only [RTree.wfb, Bool.and_eq_true] at hw
    simp only [RTree.findKid] at h
    split at h
    · cases h
    · exact ih hw.2 h
  | consDir n s' r ihs ihr =>
    simp only [RTree.wfb, Bool.and_eq_true] at hw
    simp only [RTree.findKid] at h
    split at h
    · cases h; exact hw.1.2
    · exact ihr hw.2 h

theorem findKid_dir_files (t : RTree) (m : String) (s : RTree)
    (h : t.findKid m = some (.inr s)) :
    ∀ x ∈ subtreeFiles s, m :: x ∈ subtreeFiles t := by
  induction t with
  | nil => cases h
  | consFile n b r ih =>
    simp only [RTree.findKid] at h
    split at h
    · cases h
    · intro x hx
      simp only [subtreeFiles, List.mem_cons]
      exact Or.inr (ih h x hx)
  | consDir n s' r ihs ihr =>
    simp only [RTree.findKid] at h
    split at h
    · rename_i heq
      cases h
      intro x hx
      simp only [subtreeFiles, List.mem_append]
      exact Or.inl (List.mem_map.mpr ⟨x, hx, by rw [heq]⟩)
    · intro x hx
      simp only [subtreeFiles, List.mem_append]
      exact Or.inr (ihr h x hx)

theorem entriesFilesR_append (R : Remote) (es1 es2 : List (List String × Bool)) :
    entriesFilesR R (es1 ++ es2) = entriesFilesR R es1 ++ entriesFilesR R es2 := by
  induction es1 with
  | nil => rfl
  | cons e es ih => simp [entriesFilesR, ih]

theorem entriesFilesR_shape (R : Remote) (d : List String) (r : RTree) :
    ∀ fp ∈ entriesFilesR R (listingOf d r), ∃ m x, fp = d ++ m :: x ∧ m ∈ r.names := by
  induction r with
  | nil => intro fp hfp; cases hfp
  | consFile n b rest ih =>
    intro fp hfp
    simp only [listingOf, entriesFilesR, entryFilesR, List.mem_append,
      List.mem_cons, List.not_mem_nil, or_false] at hfp
    rcases hfp with rfl | hfp
    · exact ⟨n, [], by simp, by simp [RTree.names]⟩
    · obtain ⟨m, x, rfl, hm⟩ := ih fp hfp
      exact ⟨m, x, rfl, by simp [RTree.names, hm]⟩
  | consDir n s rest ihs ihr =>
    intro fp hfp
    simp only [listingOf, entriesFilesR, entryFilesR, List.mem_append] at hfp
    rcases hfp with hfp | hfp
    · rcases hsub : subtreeAt (R none) (d ++ [n]) with _ | t'
      · rw [hsub] at hfp; cases hfp
      · rw [hsub] at hfp
        simp only [List.mem_map] at hfp
        obtain ⟨x, hx, rfl⟩ := hfp
        exact ⟨n, x, by simp, by simp [RTree.names]⟩
    · obtain ⟨m, x, rfl, hm⟩ := ihr fp hfp
      exact ⟨m, x, rfl, by simp [RTree.names, hm]⟩

theorem entriesFilesR_listing_sub (R : Remote) (p : List String) (td : RTree)
    (h : subtreeAt (R none) p = some td) :
    ∀ (r : RTree), (∀ x ∈ subtreeFiles r, x ∈ subtreeFiles td) →
      ∀ fp ∈ entriesFilesR R (listingOf p r), fp ∈ (subtreeFiles td).map (p ++ ·) := by
  intro r
  induction r with
  | nil => intro _ fp hfp; cases hfp
  | consFile n b rest ih =>
    intro hsub fp hfp
    simp only [listingOf, entriesFilesR, entryFilesR, List.mem_append,
      List.mem_cons, List.not_mem_nil, or_false] at hfp
    rcases hfp with rfl | hfp
    · exact List.mem_map.mpr ⟨[n], hsub [n] (by simp [subtreeFiles]), rfl⟩
    · exact ih (fun x hx => hsub x (by simp [subtreeFiles, hx])) fp hfp
  | consDir n s rest ihs ihr =>
    intro hsub fp hfp
    simp only [listingOf, entriesFilesR, entryFilesR, List.mem_append] at hfp
    rcases hfp with hfp | hfp
    · have hstep : subtreeAt (R none) (p ++ [n]) =
        (match td.findKid n with
         | some (.inr s') => some s'
         | _ => none) := by
        rw [subtreeAt_append, h]
        show subtreeAt td [n] = _
        simp only [subtreeAt]
      rcases hk : td.findKid n with _ | k
      · rw [hstep, hk] at hfp; cases hfp
      · cases k with
        | inl b' => rw [hstep, hk] at hfp; cases hfp
        | inr s' =>
          rw [hstep, hk] at hfp
          simp only [List.mem_map] at hfp
          obtain ⟨x, hx, rfl⟩ := hfp
          refine List.mem_map.mpr ⟨n :: x, findKid_dir_files td n s' hk x hx, ?_⟩
          simp
    · exact ihr (fun x hx => hsub x (by simp [subtreeFiles, hx])) fp hfp

theorem decode_shape (b : String) (pl : Payload) (fl : Nat)
    (h : decode_content b = .ok (pl, fl)) :
    (fl = 1 ∧ ∃ cs, pl = .text cs ∧ ∃ bs, b64decode b = .ok bs ∧ utf8Decode bs = some cs) ∨
    (fl = 0 ∧ ∃ bs, pl = .binary bs ∧ b64decode b = .ok bs ∧ utf8Decode bs = none) := by
  rcases hb : b64decode b with e | bs
  · simp only [decode_content, hb] at h
    exact Except.noConfusion h
  · rcases hu : utf8Decode bs with _ | cs
    · simp only [decode_content, hb, hu] at h
      obtain ⟨rfl, rfl⟩ : Payload.binary bs = pl ∧ (0 : Nat) = fl := by simpa using h
      exact Or.inr ⟨rfl, bs, rfl, rfl, hu⟩
    · simp only [decode_content, hb, hu] at h
      obtain ⟨rfl, rfl⟩ : Payload.text cs = pl ∧ (1 : Nat) = fl := by simpa using h
      exact Or.inl ⟨rfl, cs, rfl, bs, rfl, hu⟩
theorem processList_nil (R : Remote) (o rn : String) (fuel : Nat) (st : St) :
    processList R o rn fuel [] st = (st, none) := by
  cases fuel <;> rfl

theorem processList_zero (R : Remote) (o rn : String) (e : List String × Bool)
    (es : List (List String × Bool)) (st : St) :
    processList R o rn 0 (e :: es) st = (st, some .fuelOut) := by
  obtain ⟨p, d⟩ := e; rfl

theorem processList_dir (R : Remote) (o rn : String) (fuel : Nat) (p : List String)
    (es : List (List String × Bool)) (st : St) :
    processList R o rn (fuel + 1) ((p, true) :: es) st =
      (match subtreeAt (R none) p with
       | none =>
         ({ fs := mkdirP st.fs (rn :: p),
            evs := st.evs ++
              [.notice (.processingDir p), .mkdir (rn :: p),
               .getRepoCall o, .listCall none p] }, some .notFound)
       | some td =>
         match processList R o rn fuel (listingOf p td)
           { fs := mkdirP st.fs (rn :: p),
             evs := st.evs ++
               [.notice (.processingDir p), .mkdir (rn :: p),
                .getRepoCall o, .listCall none p] } with
         | (st2, none) => processList R o rn fuel es st2
         | (st2, some e) => (st2, some e)) := rfl

theorem processList_file (R : Remote) (o rn : String) (fuel : Nat) (p : List String)
    (es : List (List String × Bool)) (st : St) :
    processList R o rn (fuel + 1) ((p, false) :: es) st =
      (match blobAt (R none) p with
       | .error e =>
         (addEvs st [.notice (.processingFile p), .getRepoCall o, .blobCall none p], some e)
       | .ok b =>
         match decode_content b with
         | .error _ =>
           (addEvs st [.notice (.processingFile p), .getRepoCall o, .blobCall none p],
            some .decodeErr)
         | .ok (pl, fl) =>
           if (rn :: p).dropLast ∈ st.fs.dirs then
             processList R o rn fuel es
               { fs := writeFile st.fs (rn :: p) fl pl,
                 evs := (st.evs ++
                   [.notice (.processingFile p), .getRepoCall o, .blobCall none p]) ++
                   [.write (rn :: p) fl pl] }
           else
             (addEvs st [.notice (.processingFile p), .getRepoCall o, .blobCall none p],
              some .localErr)) := rfl

theorem processList_run (R : Remote) (o rn : String) :
    ∀ (fuel : Nat) (es : List (List String × Bool)) (st : St),
      ∃ Δ, (processList R o rn fuel es st).1.evs = st.evs ++ Δ ∧
        (∀ d ∈ st.fs.dirs, d ∈ (processList R o rn fuel es st).1.fs.dirs) ∧
        (∀ q, lookupA (processList R o rn fuel es st).1.fs.files q =
          (lastWrite Δ q).or (lookupA st.fs.files q)) := by
  intro fuel
  induction fuel with
  | zero =>
    intro es st
    cases es with
    | nil =>
      exact ⟨[], by simp [processList_nil], fun d hd => by simp [processList_nil, hd],
        fun q => by simp [processList_nil, lastWrite]⟩
    | cons e es =>
      exact ⟨[], by simp [processList_zero], fun d hd => by simp [processList_zero, hd],
        fun q => by simp [processList_zero, lastWrite]⟩
  | succ fuel ih =>
    intro es st
    cases es with
    | nil =>
      exact ⟨[], by simp [processList_nil], fun d hd => by simp [processList_nil, hd],
        fun q => by simp [processList_nil, lastWrite]⟩
    | cons e es =>
      obtain ⟨p, isDir⟩ := e
      cases isDir with
      | true =>
        have h := processList_dir R o rn fuel p es st
        rcases hsub : subtreeAt (R none) p with _ | td
        · rw [hsub] at h
          simp only [] at h
          rw [h]
          refine ⟨[.notice (.processingDir p), .mkdir (rn :: p), .getRepoCall o,
            .listCall none p], rfl, ?_, ?_⟩
          · exact fun d hd => dirs_mkdirP_mono _ _ _ hd
          · intro q
            show lookupA (mkdirP st.fs (rn :: p)).files q = _
            rw [files_mkdirP]
            rfl
        · rw [hsub] at h
          simp only [] at h
          obtain ⟨Δ2, he2, hd2, hf2⟩ := ih (listingOf p td)
            { fs := mkdirP st.fs (rn :: p),
              evs := st.evs ++
                [.notice (.processingDir p), .mkdir (rn :: p),
                 .getRepoCall o, .listCall none p] }
          rcases h2 : processList R o rn fuel (listingOf p td)
            { fs := mkdirP st.fs (rn :: p),
              evs := st.evs ++
                [.notice (.processingDir p), .mkdir (rn :: p),
                 .getRepoCall o, .listCall none p] } with ⟨st2, r2⟩
          rw [h2] at he2 hd2 hf2 h
          simp only [] at he2 hd2 hf2
          cases r2 with
          | some e =>
            simp only [] at h
            rw [h]
            refine ⟨[.notice (.processingDir p), .mkdir (rn :: p), .getRepoCall o,
              .listCall none p] ++ Δ2, ?_, ?_, ?_⟩
            · show st2.evs = _
              rw [he2, List.append_assoc]
            · intro d hd
              exact hd2 d (dirs_mkdirP_mono _ _ _ hd)
            · intro q
              show lookupA st2.fs.files q = _
              rw [hf2 q, files_mkdirP, lastWrite_append]
              have hnw : lastWrite [Ev.notice (.processingDir p), Ev.mkdir (rn :: p),
                  Ev.getRepoCall o, Ev.listCall none p] q = none := rfl
              rw [hnw, Option.or_none]
          | none =>
            simp only [] at h
            rw [h]
            obtain ⟨Δ3, he3, hd3, hf3⟩ := ih es st2
            refine ⟨([.notice (.processingDir p), .mkdir (rn :: p), .getRepoCall o,
              .listCall none p] ++ Δ2) ++ Δ3, ?_, ?_, ?_⟩
            · rw [he3, he2]
              simp only [List.append_assoc]
            · intro d hd
              exact hd3 d (hd2 d (dirs_mkdirP_mono _ _ _ hd))
            · intro q
              rw [hf3 q, hf2 q, files_mkdirP, lastWrite_append, lastWrite_append]
              have hnw : lastWrite [Ev.notice (.processingDir p), Ev.mkdir (rn :: p),
                  Ev.getRepoCall o, Ev.listCall none p] q = none := rfl
              rw [hnw, Option.or_none, Option.or_assoc]
      | false =>
        have h := processList_file R o rn fuel p es st
        rcases hblob : blobAt (R none) p with e | b
        · rw [hblob] at h
          simp only [] at h
          rw [h]
          exact ⟨[.notice (.processingFile p), .getRepoCall o, .blobCall none p],
            rfl, fun d hd => hd, fun q => rfl⟩
        · rw [hblob] at h
          simp only [] at h
          rcases hdc : decode_content b with e | plfl
          · rw [hdc] at h
            simp only [] at h
            rw [h]
            exact ⟨[.notice (.processingFile p), .getRepoCall o, .blobCall none p],
              rfl, fun d hd => hd, fun q => rfl⟩
          · obtain ⟨pl, fl⟩ := plfl
            rw [hdc] at h
            simp only [] at h
            by_cases hpar : (rn :: p).dropLast ∈ st.fs.dirs
            · rw [if_pos hpar] at h
              rw [h]
              obtain ⟨Δ3, he3, hd3, hf3⟩ := ih es
                { fs := writeFile st.fs (rn :: p) fl pl,
                  evs := (st.evs ++
                    [.notice (.processingFile p), .getRepoCall o, .blobCall none p]) ++
                    [.write (rn :: p) fl pl] }
              refine ⟨([.notice (.processingFile p), .getRepoCall o, .blobCall none p] ++
                [.write (rn :: p) fl pl]) ++ Δ3, ?_, ?_, ?_⟩
              · rw [he3]
                simp only [List.append_assoc]
              · intro d hd
                exact hd3 d hd
              · intro q
                rw [hf3 q]
                show (lastWrite Δ3 q).or
                  (lookupA (setAssoc st.fs.files (rn :: p) (fl, pl)) q) = _
                rw [lookupA_setAssoc, lastWrite_append, lastWrite_append]
                have hnw : lastWrite [Ev.notice (.processingFile p), Ev.getRepoCall o,
                    Ev.blobCall none p] q = none := rfl
                rw [hnw, Option.or_none]
                have hw : lastWrite [Ev.write (rn :: p) fl pl] q =
                    (if (rn :: p) = q then some (fl, pl) else none) := by
                  simp [lastWrite]
                rw [hw, Option.or_assoc]
                congr 1
                by_cases hq : (rn :: p) = q
                · rw [if_pos hq, if_pos hq]; rfl
                · rw [if_neg hq, if_neg hq]; rfl
            · rw [if_neg hpar] at h
              rw [h]
              exact ⟨[.notice (.processingFile p), .getRepoCall o, .blobCall none p],
                rfl, fun d hd => hd, fun q => rfl⟩

theorem processList_abort (R : Remote) (o rn : String) :
    ∀ (fuel : Nat) (es1 es2 : List (List String × Bool)) (st st1 : St) (ex : Exn),
      processList R o rn fuel es1 st = (st1, some ex) →
      processList R o rn fuel (es1 ++ es2) st = (st1, some ex) := by
  intro fuel
  induction fuel with
  | zero =>
    intro es1 es2 st st1 ex h
    cases es1 with
    | nil =>
      rw [processList_nil] at h
      exact Option.noConfusion (congrArg Prod.snd h)
    | cons e es1 =>
      rw [processList_zero] at h
      injection h with h1 h2
      injection h2 with h3
      subst h1
      subst h3
      rw [List.cons_append, processList_zero]
  | succ fuel ih =>
    intro es1 es2 st st1 ex h
    cases es1 with
    | nil =>
      rw [processList_nil] at h
      exact Option.noConfusion (congrArg Prod.snd h)
    | cons e es1 =>
      obtain ⟨p, isDir⟩ := e
      rw [List.cons_append]
      cases isDir with
      | true =>
        have hd := processList_dir R o rn fuel p es1 st
        have hd' := processList_dir R o rn fuel p (es1 ++ es2) st
        rcases hsub : subtreeAt (R none) p with _ | td
        · rw [hsub] at hd hd'
          simp only [] at hd hd'
          rw [hd] at h
          rw [hd', ← h]
        · rw [hsub] at hd hd'
          simp only [] at hd hd'
          rcases h2 : processList R o rn fuel (listingOf p td)
            { fs := mkdirP st.fs (rn :: p),
              evs := st.evs ++
                [.notice (.processingDir p), .mkdir (rn :: p),
                 .getRepoCall o, .listCall none p] } with ⟨st2, r2⟩
          rw [h2] at hd hd'
          cases r2 with
          | some e =>
            simp only [] at hd hd'
            rw [hd] at h
            rw [hd', ← h]
          | none =>
            simp only [] at hd hd'
            rw [hd] at h
            rw [hd']
            exact ih es1 es2 st2 st1 ex h
      | false =>
        have hf := processList_file R o rn fuel p es1 st
        have hf' := processList_file R o rn fuel p (es1 ++ es2) st
        rcases hblob : blobAt (R none) p with e | b
        · rw [hblob] at hf hf'
          simp only [] at hf hf'
          rw [hf] at h
          rw [hf', ← h]
        · rw [hblob] at hf hf'
          simp only [] at hf hf'
          rcases hdc : decode_content b with e | ⟨pl, fl⟩
          · rw [hdc] at hf hf'
            simp only [] at hf hf'
            rw [hf] at h
            rw [hf', ← h]
          · rw [hdc] at hf hf'
            simp only [] at hf hf'
            by_cases hpar : (rn :: p).dropLast ∈ st.fs.dirs
            · rw [if_pos hpar] at hf hf'
              rw [hf] at h
              rw [hf']
              exact ih es1 es2 _ st1 ex h
            · rw [if_neg hpar] at hf hf'
              rw [hf] at h
              rw [hf', ← h]

theorem processList_refs (R : Remote) (o rn : String) :
    ∀ (fuel : Nat) (es : List (List String × Bool)) (st : St),
      (∀ r' p', Ev.listCall r' p' ∈ (processList R o rn fuel es st).1.evs →
        Ev.listCall r' p' ∈ st.evs ∨ r' = none) ∧
      (∀ r' p', Ev.blobCall r' p' ∈ (processList R o rn fuel es st).1.evs →
        Ev.blobCall r' p' ∈ st.evs ∨ r' = none) := by
  intro fuel
  induction fuel with
  | zero =>
    intro es st
    cases es with
    | nil => rw [processList_nil]; exact ⟨fun _ _ h => Or.inl h, fun _ _ h => Or.inl h⟩
    | cons e es => rw [processList_zero]; exact ⟨fun _ _ h => Or.inl h, fun _ _ h => Or.inl h⟩
  | succ fuel ih =>
    intro es st
    cases es with
    | nil => rw [processList_nil]; exact ⟨fun _ _ h => Or.inl h, fun _ _ h => Or.inl h⟩
    | cons e es =>
      obtain ⟨p, isDir⟩ := e
      cases isDir with
      | true =>
        have hd := processList_dir R o rn fuel p es st
        rcases hsub : subtreeAt (R none) p with _ | td
        · rw [hsub] at hd
          simp only [] at hd
          rw [hd]
          constructor
          · intro r' p' hmem
            simp only [List.mem_append, List.mem_cons, List.not_mem_nil, or_false] at hmem
            rcases hmem with hmem | hmem | hmem | hmem | hmem
            · exact Or.inl hmem
            · cases hmem
            · cases hmem
            · cases hmem
            · cases hmem; exact Or.inr rfl
          · intro r' p' hmem
            simp only [List.mem_append, List.mem_cons, List.not_mem_nil, or_false] at hmem
            rcases hmem with hmem | hmem | hmem | hmem | hmem
            · exact Or.inl hmem
            · cases hmem
            · cases hmem
            · cases hmem
            · cases hmem
        · rw [hsub] at hd
          simp only [] at hd
          rcases h2 : processList R o rn fuel (listingOf p td)
            { fs := mkdirP st.fs (rn :: p),
              evs := st.evs ++
                [.notice (.processingDir p), .mkdir (rn :: p),
                 .getRepoCall o, .listCall none p] } with ⟨st2, r2⟩
          have hmid := ih (listingOf p td)
            { fs := mkdirP st.fs (rn :: p),
              evs := st.evs ++
                [.notice (.processingDir p), .mkdir (rn :: p),
                 .getRepoCall o, .listCall none p] }
          rw [h2] at hd hmid
          simp only [] at hmid
          have hbatch : ∀ (r' : Option String) (p' : List String),
              (Ev.listCall r' p' ∈ st.evs ++
                [Ev.notice (.processingDir p), Ev.mkdir (rn :: p),
                 Ev.getRepoCall o, Ev.listCall none p] → Ev.listCall r' p' ∈ st.evs ∨ r' = none) ∧
              (Ev.blobCall r' p' ∈ st.evs ++
                [Ev.notice (.processingDir p), Ev.mkdir (rn :: p),
                 Ev.getRepoCall o, Ev.listCall none p] → Ev.blobCall r' p' ∈ st.evs ∨ r' = none) := by
            intro r' p'
            constructor
            · intro hmem
              simp only [List.mem_append, List.mem_cons, List.not_mem_nil, or_false] at hmem
              rcases hmem with hmem | hmem | hmem | hmem | hmem
              · exact Or.inl hmem
              · cases hmem
              · cases hmem
              · cases hmem
              · cases hmem; exact Or.inr rfl
            · intro hmem
              simp only [List.mem_append, List.mem_cons, List.not_mem_nil, or_false] at hmem
              rcases hmem with hmem | hmem | hmem | hmem | hmem
              · exact Or.inl hmem
              · cases hmem
              · cases hmem
              · cases hmem
              · cases hmem
          cases r2 with
          | some e =>
            simp only [] at hd
            rw [hd]
            constructor
            · intro r' p' hmem
              rcases hmid.1 r' p' hmem with hin | hnone
              · exact (hbatch r' p').1 hin
              · exact Or.inr hnone
            · intro r' p' hmem
              rcases hmid.2 r' p' hmem with hin | hnone
              · exact (hbatch r' p').2 hin
              · exact Or.inr hnone
          | none =>
            simp only [] at hd
            rw [hd]
            have htail := ih es st2
            constructor
            · intro r' p' hmem
              rcases htail.1 r' p' hmem with hin | hnone
              · rcases hmid.1 r' p' hin with hin2 | hnone
                · exact (hbatch r' p').1 hin2
                · exact Or.inr hnone
              · exact Or.inr hnone
            · intro r' p' hmem
              rcases htail.2 r' p' hmem with hin | hnone
              · rcases hmid.2 r' p' hin with hin2 | hnone
                · exact (hbatch r' p').2 hin2
                · exact Or.inr hnone
              · exact Or.inr hnone
      | false =>
        have hf := processList_file R o rn fuel p es st
        have hbatch : ∀ (r' : Option String) (p' : List String),
            (Ev.listCall r' p' ∈ st.evs ++
              [Ev.notice (.processingFile p), Ev.getRepoCall o, Ev.blobCall none p] →
              Ev.listCall r' p' ∈ st.evs ∨ r' = none) ∧
            (Ev.blobCall r' p' ∈ st.evs ++
              [Ev.notice (.processingFile p), Ev.getRepoCall o, Ev.blobCall none p] →
              Ev.blobCall r' p' ∈ st.evs ∨ r' = none) := by
          intro r' p'
          constructor
          · intro hmem
            simp only [List.mem_append, List.mem_cons, List.not_mem_nil, or_false] at hmem
            rcases hmem with hmem | hmem | hmem | hmem
            · exact Or.inl hmem
            · cases hmem
            · cases hmem
            · cases hmem
          · intro hmem
            simp only [List.mem_append, List.mem_cons, List.not_mem_nil, or_false] at hmem
            rcases hmem with hmem | hmem | hmem | hmem
            · exact Or.inl hmem
            · cases hmem
            · cases hmem
            · cases hmem; exact Or.inr rfl
        rcases hblob : blobAt (R none) p with e | b
        · rw [hblob] at hf
          simp only [] at hf
          rw [hf]
          exact ⟨fun r' p' h => (hbatch r' p').1 h, fun r' p' h => (hbatch r' p').2 h⟩
        · rw [hblob] at hf
          simp only [] at hf
          rcases hdc : decode_content b with e | ⟨pl, fl⟩
          · rw [hdc] at hf
            simp only [] at hf
            rw [hf]
            exact ⟨fun r' p' h => (hbatch r' p').1 h, fun r' p' h => (hbatch r' p').2 h⟩
          · rw [hdc] at hf
            simp only [] at hf
            by_cases hpar : (rn :: p).dropLast ∈ st.fs.dirs
            · rw [if_pos hpar] at hf
              rw [hf]
              have htail := ih es
                { fs := writeFile st.fs (rn :: p) fl pl,
                  evs := (st.evs ++
                    [.notice (.processingFile p), .getRepoCall o, .blobCall none p]) ++
                    [.write (rn :: p) fl pl] }
              constructor
              · intro r' p' hmem
                rcases htail.1 r' p' hmem with hin | hnone
                · simp only [List.mem_append, List.mem_cons, List.not_mem_nil, or_false] at hin
                  rcases hin with ((hm | hm | hm | hm) | hm)
                  · exact Or.inl hm
                  · cases hm
                  · cases hm
                  · cases hm
                  · cases hm
                · exact Or.inr hnone
              · intro r' p' hmem
                rcases htail.2 r' p' hmem with hin | hnone
                · simp only [List.mem_append, List.mem_cons, List.not_mem_nil, or_false] at hin
                  rcases hin with ((hm | hm | hm | hm) | hm)
                  · exact Or.inl hm
                  · cases hm
                  · cases hm
                  · cases hm; exact Or.inr rfl
                  · cases hm
                · exact Or.inr hnone
            · rw [if_neg hpar] at hf
              rw [hf]
              exact ⟨fun r' p' h => (hbatch r' p').1 h, fun r' p' h => (hbatch r' p').2 h⟩

theorem processList_congr (R1 R2 : Remote) (o rn : String) (hR : R1 none = R2 none) :
    ∀ (fuel : Nat) (es : List (List String × Bool)) (st : St),
      processList R1 o rn fuel es st = processList R2 o rn fuel es st := by
  intro fuel
  induction fuel with
  | zero =>
    intro es st
    cases es with
    | nil => rw [processList_nil, processList_nil]
    | cons e es => rw [processList_zero, processList_zero]
  | succ fuel ih =>
    intro es st
    cases es with
    | nil => rw [processList_nil, processList_nil]
    | cons e es =>
      obtain ⟨p, isDir⟩ := e
      cases isDir with
      | true =>
        rw [processList_dir, processList_dir, hR]
        simp only [ih]
      | false =>
        rw [processList_file, processList_file, hR]
        simp only [ih]

theorem mem_foldl_addDir_inv (l : List (List String)) (fs : FS) (d : List String)
    (h : d ∈ (l.foldl addDir fs).dirs) : d ∈ fs.dirs ∨ d ∈ l := by
  induction l generalizing fs with
  | nil => exact Or.inl h
  | cons x l ih =>
    rcases ih (addDir fs x) h with h' | h'
    · unfold addDir at h'
      split at h'
      · exact Or.inl h'
      · rcases List.mem_append.mp h' with h'' | h''
        · exact Or.inl h''
        · simp only [List.mem_singleton] at h''
          exact Or.inr (by simp [h''])
    · exact Or.inr (by simp [h'])

theorem mem_mkdirP_inv (fs : FS) (p d : List String) (h : d ∈ (mkdirP fs p).dirs) :
    d ∈ fs.dirs ∨ d ∈ pathSegs p :=
  mem_foldl_addDir_inv _ fs d h

theorem mkAcc_mono (l1 l2 : List Ev) (q : List String) (h : q ∈ mkAcc l1 []) :
    q ∈ mkAcc (l1 ++ l2) [] := by
  rw [mkAcc_append]
  rcases (mem_mkAcc l1 [] q).mp h with h' | h'
  · exact (mem_mkAcc l2 _ q).mpr (Or.inr ((mem_mkAcc l1 [] q).mpr (Or.inl h')))
  · cases h'

theorem processList_wc (R : Remote) (o rn : String) :
    ∀ (fuel : Nat) (es : List (List String × Bool)) (st : St),
      writesCovered st.evs [] = true →
      (∀ d ∈ st.fs.dirs, ∃ q, q ∈ mkAcc st.evs [] ∧ pfxOf d q = true) →
      writesCovered (processList R o rn fuel es st).1.evs [] = true ∧
      (∀ d ∈ (processList R o rn fuel es st).1.fs.dirs,
        ∃ q, q ∈ mkAcc (processList R o rn fuel es st).1.evs [] ∧ pfxOf d q = true) := by
  intro fuel
  induction fuel with
  | zero =>
    intro es st hwc hdirs
    cases es with
    | nil => rw [processList_nil]; exact ⟨hwc, hdirs⟩
    | cons e es => rw [processList_zero]; exact ⟨hwc, hdirs⟩
  | succ fuel ih =>
    intro es st hwc hdirs
    cases es with
    | nil => rw [processList_nil]; exact ⟨hwc, hdirs⟩
    | cons e es =>
      obtain ⟨p, isDir⟩ := e
      cases isDir with
      | true =>
        have hd := processList_dir R o rn fuel p es st
        have hwc1 : writesCovered (st.evs ++
            [Ev.notice (.processingDir p), Ev.mkdir (rn :: p),
             Ev.getRepoCall o, Ev.listCall none p]) [] = true := by
          rw [writesCovered_append, Bool.and_eq_true]
          exact ⟨hwc, rfl⟩
        have hdirs1 : ∀ d ∈ (mkdirP st.fs (rn :: p)).dirs,
            ∃ q, q ∈ mkAcc (st.evs ++
              [Ev.notice (.processingDir p), Ev.mkdir (rn :: p),
               Ev.getRepoCall o, Ev.listCall none p]) [] ∧ pfxOf d q = true := by
          intro d hd'
          rcases mem_mkdirP_inv st.fs (rn :: p) d hd' with hold | hnew
          · obtain ⟨q, hq, hpfx⟩ := hdirs d hold
            exact ⟨q, mkAcc_mono _ _ q hq, hpfx⟩
          · refine ⟨rn :: p, ?_, pathSegs_pfxOf _ d hnew⟩
            rw [mkAcc_append]
            exact (mem_mkAcc _ _ _).mpr (Or.inl (by simp))
        rcases hsub : subtreeAt (R none) p with _ | td
        · rw [hsub] at hd
          simp only [] at hd
          rw [hd]
          exact ⟨hwc1, hdirs1⟩
        · rw [hsub] at hd
          simp only [] at hd
          rcases h2 : processList R o rn fuel (listingOf p td)
            { fs := mkdirP st.fs (rn :: p),
              evs := st.evs ++
                [.notice (.processingDir p), .mkdir (rn :: p),
                 .getRepoCall o, .listCall none p] } with ⟨st2, r2⟩
          have hmid := ih (listingOf p td)
            { fs := mkdirP st.fs (rn :: p),
              evs := st.evs ++
                [.notice (.processingDir p), .mkdir (rn :: p),
                 .getRepoCall o, .listCall none p] } hwc1 hdirs1
          rw [h2] at hd hmid
          simp only [] at hmid
          cases r2 with
          | some e =>
            simp only [] at hd
            rw [hd]
            exact hmid
          | none =>
            simp only [] at hd
            rw [hd]
            exact ih es st2 hmid.1 hmid.2
      | false =>
        have hf := processList_file R o rn fuel p es st
        have hwc1 : writesCovered (st.evs ++
            [Ev.notice (.processingFile p), Ev.getRepoCall o, Ev.blobCall none p]) [] = true := by
          rw [writesCovered_append, Bool.and_eq_true]
          exact ⟨hwc, rfl⟩
        have hacc1 : mkAcc (st.evs ++
            [Ev.notice (.processingFile p), Ev.getRepoCall o, Ev.blobCall none p]) [] =
            mkAcc st.evs [] := by
          rw [mkAcc_append]
          rfl
        have hdirs1 : ∀ d ∈ st.fs.dirs,
            ∃ q, q ∈ mkAcc (st.evs ++
              [Ev.notice (.processingFile p), Ev.getRepoCall o, Ev.blobCall none p]) [] ∧
              pfxOf d q = true := by
          intro d hd'
          rw [hacc1]
          exact hdirs d hd'
        rcases hblob : blobAt (R none) p with e | b
        · rw [hblob] at hf
          simp only [] at hf
          rw [hf]
          exact ⟨hwc1, hdirs1⟩
        · rw [hblob] at hf
          simp only [] at hf
          rcases hdc : decode_content b with e | ⟨pl, fl⟩
          · rw [hdc] at hf
            simp only [] at hf
            rw [hf]
            exact ⟨hwc1, hdirs1⟩
          · rw [hdc] at hf
            simp only [] at hf
            by_cases hpar : (rn :: p).dropLast ∈ st.fs.dirs
            · rw [if_pos hpar] at hf
              rw [hf]
              have hwc2 : writesCovered ((st.evs ++
                  [Ev.notice (.processingFile p), Ev.getRepoCall o, Ev.blobCall none p]) ++
                  [Ev.write (rn :: p) fl pl]) [] = true := by
                rw [writesCovered_append, Bool.and_eq_true]
                refine ⟨hwc1, ?_⟩
                show (_ && _) = true
                rw [Bool.and_eq_true]
                refine ⟨?_, rfl⟩
                rw [hacc1]
                obtain ⟨q, hq, hpfx⟩ := hdirs _ hpar
                exact List.any_eq_true.mpr ⟨q, hq, hpfx⟩
              have hacc2 : mkAcc ((st.evs ++
                  [Ev.notice (.processingFile p), Ev.getRepoCall o, Ev.blobCall none p]) ++
                  [Ev.write (rn :: p) fl pl]) [] = mkAcc st.evs [] := by
                rw [mkAcc_append, hacc1]
                rfl
              have hdirs2 : ∀ d ∈ (writeFile st.fs (rn :: p) fl pl).dirs,
                  ∃ q, q ∈ mkAcc ((st.evs ++
                    [Ev.notice (.processingFile p), Ev.getRepoCall o, Ev.blobCall none p]) ++
                    [Ev.write (rn :: p) fl pl]) [] ∧ pfxOf d q = true := by
                intro d hd'
                rw [hacc2]
                exact hdirs d hd'
              exact ih es _ hwc2 hdirs2
            · rw [if_neg hpar] at hf
              rw [hf]
              exact ⟨hwc1, hdirs1⟩

theorem processList_writes (R : Remote) (o rn : String) :
    ∀ (fuel : Nat) (es : List (List String × Bool)) (st : St) (q : List String),
      lookupA (processList R o rn fuel es st).1.fs.files q ≠ lookupA st.fs.files q →
      q ∈ (entriesFilesR R es).map (rn :: ·) := by
  intro fuel
  induction fuel with
  | zero =>
    intro es st q hne
    cases es with
    | nil => rw [processList_nil] at hne; exact absurd rfl hne
    | cons e es => rw [processList_zero] at hne; exact absurd rfl hne
  | succ fuel ih =>
    intro es st q hne
    cases es with
    | nil => rw [processList_nil] at hne; exact absurd rfl hne
    | cons e es =>
      obtain ⟨p, isDir⟩ := e
      cases isDir with
      | true =>
        have hd := processList_dir R o rn fuel p es st
        rcases hsub : subtreeAt (R none) p with _ | td
        · rw [hsub] at hd
          simp only [] at hd
          rw [hd] at hne
          show _ ∈ List.map _ (entriesFilesR R ((p, true) :: es))
          exact absurd (by show lookupA (mkdirP st.fs (rn :: p)).files q = _
                           rw [files_mkdirP]) hne
        · rw [hsub] at hd
          simp only [] at hd
          rcases h2 : processList R o rn fuel (listingOf p td)
            { fs := mkdirP st.fs (rn :: p),
              evs := st.evs ++
                [.notice (.processingDir p), .mkdir (rn :: p),
                 .getRepoCall o, .listCall none p] } with ⟨st2, r2⟩
          rw [h2] at hd
          have hup : q ∈ (entriesFilesR R (listingOf p td)).map (rn :: ·) →
              q ∈ (entriesFilesR R ((p, true) :: es)).map (rn :: ·) := by
            intro hq
            obtain ⟨fp, hfp, rfl⟩ := List.mem_map.mp hq
            have := entriesFilesR_listing_sub R p td hsub td (fun x hx => hx) fp hfp
            refine List.mem_map.mpr ⟨fp, ?_, rfl⟩
            simp only [entriesFilesR, entryFilesR, hsub, List.mem_append]
            exact Or.inl this
          have hmidne : lookupA st2.fs.files q ≠ lookupA st.fs.files q →
              q ∈ (entriesFilesR R ((p, true) :: es)).map (rn :: ·) := by
            intro hq
            refine hup ?_
            refine ih (listingOf p td)
              { fs := mkdirP st.fs (rn :: p),
                evs := st.evs ++
                  [.notice (.processingDir p), .mkdir (rn :: p),
                   .getRepoCall o, .listCall none p] } q ?_
            rw [h2]
            show lookupA st2.fs.files q ≠ lookupA (mkdirP st.fs (rn :: p)).files q
            rw [files_mkdirP]
            exact hq
          cases r2 with
          | some e =>
            simp only [] at hd
            rw [hd] at hne
            exact hmidne hne
          | none =>
            simp only [] at hd
            rw [hd] at hne
            by_cases hq2 : lookupA st2.fs.files q = lookupA st.fs.files q
            · have : lookupA (processList R o rn fuel es st2).1.fs.files q ≠
                  lookupA st2.fs.files q := by
                rw [hq2]; exact hne
              have htail := ih es st2 q this
              obtain ⟨fp, hfp, rfl⟩ := List.mem_map.mp htail
              refine List.mem_map.mpr ⟨fp, ?_, rfl⟩
              simp only [entriesFilesR, List.mem_append]
              exact Or.inr hfp
            · exact hmidne hq2
      | false =>
        have hf := processList_file R o rn fuel p es st
        rcases hblob : blobAt (R none) p with e | b
        · rw [hblob] at hf
          simp only [] at hf
          rw [hf] at hne
          exact absurd rfl hne
        · rw [hblob] at hf
          simp only [] at hf
          rcases hdc : decode_content b with e | ⟨pl, fl⟩
          · rw [hdc] at hf
            simp only [] at hf
            rw [hf] at hne
            exact absurd rfl hne
          · rw [hdc] at hf
            simp only [] at hf
            by_cases hpar : (rn :: p).dropLast ∈ st.fs.dirs
            · rw [if_pos hpar] at hf
              rw [hf] at hne
              by_cases hq2 : lookupA (writeFile st.fs (rn :: p) fl pl).files q =
                  lookupA st.fs.files q
              · have : lookupA (processList R o rn fuel es
                    { fs := writeFile st.fs (rn :: p) fl pl,
                      evs := (st.evs ++
                        [.notice (.processingFile p), .getRepoCall o, .blobCall none p]) ++
                        [.write (rn :: p) fl pl] }).1.fs.files q ≠
                    lookupA (writeFile st.fs (rn :: p) fl pl).files q := by
                  rw [hq2]; exact hne
                have htail := ih es _ q this
                obtain ⟨fp, hfp, rfl⟩ := List.mem_map.mp htail
                refine List.mem_map.mpr ⟨fp, ?_, rfl⟩
                simp only [entriesFilesR, entryFilesR, List.mem_append]
                exact Or.inr hfp
              · have : q = rn :: p := by
                  by_contra hqq
                  refine hq2 ?_
                  show lookupA (setAssoc st.fs.files (rn :: p) (fl, pl)) q = _
                  rw [lookupA_setAssoc, if_neg (fun hh => hqq hh.symm)]
                subst this
                refine List.mem_map.mpr ⟨p, ?_, rfl⟩
                simp [entriesFilesR, entryFilesR]
            · rw [if_neg hpar] at hf
              rw [hf] at hne
              exact absurd rfl hne

theorem names_consFile (m : String) (b : Except Unit String) (rest : RTree) :
    (RTree.consFile m b rest).names = m :: rest.names := rfl

theorem names_consDir (m : String) (s rest : RTree) :
    (RTree.consDir m s rest).names = m :: rest.names := rfl

theorem processList_fidelity (R : Remote) (o rn : String) :
    ∀ (fuel : Nat) (r td : RTree) (d : List String) (st : St),
      subtreeAt (R none) d = some td → RTree.wfb td = true →
      (∀ m ∈ r.names, RTree.findKid td m = RTree.findKid r m) →
      r.names.Nodup →
      (rn :: d) ∈ st.fs.dirs →
      (processList R o rn fuel (listingOf d r) st).2 = none →
      ∀ fp ∈ subtreeFiles r, ∃ b pl fl,
        blobAt (R none) (d ++ fp) = .ok b ∧
        decode_content b = .ok (pl, fl) ∧
        lookupA (processList R o rn fuel (listingOf d r) st).1.fs.files (rn :: (d ++ fp)) =
          some (fl, pl) := by
  intro fuel
  induction fuel with
  | zero =>
    intro r td d st hsub hwf hfind hnd hdir hsucc
    cases r with
    | nil => intro fp hfp; cases hfp
    | consFile m bres rest =>
      rw [show listingOf d (RTree.consFile m bres rest) =
        (d ++ [m], false) :: listingOf d rest from rfl, processList_zero] at hsucc
      cases hsucc
    | consDir m sub rest =>
      rw [show listingOf d (RTree.consDir m sub rest) =
        (d ++ [m], true) :: listingOf d rest from rfl, processList_zero] at hsucc
      cases hsucc
  | succ fuel ih =>
    intro r td d st hsub hwf hfind hnd hdir hsucc
    cases r with
    | nil => intro fp hfp; cases hfp
    | consFile m bres rest =>
      have hlist : listingOf d (RTree.consFile m bres rest) =
        (d ++ [m], false) :: listingOf d rest := rfl
      rw [hlist] at hsucc ⊢
      rw [names_consFile, List.nodup_cons] at hnd
      have hmem : m ∈ (RTree.consFile m bres rest).names := by
        rw [names_consFile]; simp
      have hfindm : RTree.findKid td m = some (.inl bres) := by
        rw [hfind m hmem]
        simp [RTree.findKid]
      have hf := processList_file R o rn fuel (d ++ [m]) (listingOf d rest) st
      have hblob := blobAt_concat (R none) d m
      rw [hsub] at hblob
      simp only [] at hblob
      rw [hfindm] at hblob
      cases bres with
      | error e =>
        simp only [] at hblob
        rw [hblob] at hf
        simp only [] at hf
        rw [hf] at hsucc
        cases hsucc
      | ok b =>
        simp only [] at hblob
        rw [hblob] at hf
        simp only [] at hf
        rcases hdc : decode_content b with e | ⟨pl, fl⟩
        · rw [hdc] at hf
          simp only [] at hf
          rw [hf] at hsucc
          cases hsucc
        · rw [hdc] at hf
          simp only [] at hf
          have hpar : (rn :: (d ++ [m])).dropLast ∈ st.fs.dirs := by
            rw [show rn :: (d ++ [m]) = (rn :: d) ++ [m] from rfl, List.dropLast_concat]
            exact hdir
          rw [if_pos hpar] at hf
          rw [hf] at hsucc ⊢
          have hfind' : ∀ m' ∈ rest.names, RTree.findKid td m' = RTree.findKid rest m' := by
            intro m' hm'
            have hne : m ≠ m' := fun he => hnd.1 (he ▸ hm')
            rw [hfind m' (by rw [names_consFile]; simp [hm'])]
            simp only [RTree.findKid]
            rw [if_neg hne]
          have hdir'' : (rn :: d) ∈ (writeFile st.fs (rn :: (d ++ [m])) fl pl).dirs := hdir
          have htail := ih rest td d
            { fs := writeFile st.fs (rn :: (d ++ [m])) fl pl,
              evs := (st.evs ++
                [.notice (.processingFile (d ++ [m])), .getRepoCall o,
                 .blobCall none (d ++ [m])]) ++
                [.write (rn :: (d ++ [m])) fl pl] }
            hsub hwf hfind' hnd.2 hdir'' hsucc
          intro fp hfp
          simp only [subtreeFiles, List.mem_cons] at hfp
          rcases hfp with rfl | hfp
          · refine ⟨b, pl, fl, hblob, hdc, ?_⟩
            by_cases hch : lookupA (processList R o rn fuel (listingOf d rest)
                { fs := writeFile st.fs (rn :: (d ++ [m])) fl pl,
                  evs := (st.evs ++
                    [.notice (.processingFile (d ++ [m])), .getRepoCall o,
                     .blobCall none (d ++ [m])]) ++
                    [.write (rn :: (d ++ [m])) fl pl] }).1.fs.files (rn :: (d ++ [m])) =
                lookupA (writeFile st.fs (rn :: (d ++ [m])) fl pl).files (rn :: (d ++ [m]))
            · rw [hch]
              show lookupA (setAssoc st.fs.files (rn :: (d ++ [m])) (fl, pl)) _ = _
              rw [lookupA_setAssoc, if_pos rfl]
            · have hw := processList_writes R o rn fuel (listingOf d rest) _ _ hch
              obtain ⟨fp', hfp', heq⟩ := List.mem_map.mp hw
              obtain ⟨m', x', hshape, hm'⟩ := entriesFilesR_shape R d rest fp' hfp'
              rw [hshape] at heq
              have : ([m] : List String) = m' :: x' := by
                have h1 : (d ++ [m]) = d ++ m' :: x' := by
                  injection heq.symm with _ h2
                exact List.append_cancel_left h1
              have : m = m' := (List.cons.injEq .. ▸ this).1
              exact absurd (this ▸ hm') hnd.1
          · obtain ⟨b', pl', fl', hb', hd', hl'⟩ := htail fp hfp
            exact ⟨b', pl', fl', hb', hd', hl'⟩
    | consDir m sub rest =>
      have hlist : listingOf d (RTree.consDir m sub rest) =
        (d ++ [m], true) :: listingOf d rest := rfl
      rw [hlist] at hsucc ⊢
      rw [names_consDir, List.nodup_cons] at hnd
      have hmem : m ∈ (RTree.consDir m sub rest).names := by
        rw [names_consDir]; simp
      have hfindm : RTree.findKid td m = some (.inr sub) := by
        rw [hfind m hmem]
        simp [RTree.findKid]
      have hsub2 : subtreeAt (R none) (d ++ [m]) = some sub := by
        rw [subtreeAt_append, hsub]
        show subtreeAt td [m] = _
        simp only [subtreeAt, hfindm]
      have hd2 := processList_dir R o rn fuel (d ++ [m]) (listingOf d rest) st
      rw [hsub2] at hd2
      simp only [] at hd2
      rcases h2 : processList R o rn fuel (listingOf (d ++ [m]) sub)
        { fs := mkdirP st.fs (rn :: (d ++ [m])),
          evs := st.evs ++
            [.notice (.processingDir (d ++ [m])), .mkdir (rn :: (d ++ [m])),
             .getRepoCall o, .listCall none (d ++ [m])] } with ⟨st2, r2⟩
      rw [h2] at hd2
      cases r2 with
      | some e =>
        simp only [] at hd2
        rw [hd2] at hsucc
        cases hsucc
      | none =>
        simp only [] at hd2
        rw [hd2] at hsucc ⊢
        have hwfsub : sub.wfb = true := wfb_findKid_dir td m sub hwf hfindm
        have hdirsub : (rn :: (d ++ [m])) ∈ (mkdirP st.fs (rn :: (d ++ [m]))).dirs :=
          self_mem_mkdirP _ _ (by simp)
        have hchild := ih sub sub (d ++ [m])
          { fs := mkdirP st.fs (rn :: (d ++ [m])),
            evs := st.evs ++
              [.notice (.processingDir (d ++ [m])), .mkdir (rn :: (d ++ [m])),
               .getRepoCall o, .listCall none (d ++ [m])] }
          hsub2 hwfsub (fun _ _ => rfl) (wfb_names_nodup sub hwfsub) hdirsub (by rw [h2])
        rw [h2] at hchild
        simp only [] at hchild
        have hfind' : ∀ m' ∈ rest.names, RTree.findKid td m' = RTree.findKid rest m' := by
          intro m' hm'
          have hne : m ≠ m' := fun he => hnd.1 (he ▸ hm')
          rw [hfind m' (by rw [names_consDir]; simp [hm'])]
          simp only [RTree.findKid]
          rw [if_neg hne]
        have hdirst2 : (rn :: d) ∈ st2.fs.dirs := by
          obtain ⟨Δw, _, hmono, _⟩ := processList_run R o rn fuel (listingOf (d ++ [m]) sub)
            { fs := mkdirP st.fs (rn :: (d ++ [m])),
              evs := st.evs ++
                [.notice (.processingDir (d ++ [m])), .mkdir (rn :: (d ++ [m])),
                 .getRepoCall o, .listCall none (d ++ [m])] }
          have := hmono (rn :: d) (dirs_mkdirP_mono _ _ _ hdir)
          rw [h2] at this
          exact this
        have htail := ih rest td d st2 hsub hwf hfind' hnd.2 hdirst2 hsucc
        intro fp hfp
        simp only [subtreeFiles, List.mem_append] at hfp
        rcases hfp with hfp | hfp
        · obtain ⟨x, hx, rfl⟩ := List.mem_map.mp hfp
          obtain ⟨b', pl', fl', hb', hdc', hl'⟩ := hchild x hx
          rw [show (d ++ [m]) ++ x = d ++ (m :: x) by
            rw [List.append_assoc]; rfl] at hb' hl'
          refine ⟨b', pl', fl', hb', hdc', ?_⟩
          by_cases hch : lookupA (processList R o rn fuel (listingOf d rest) st2).1.fs.files
              (rn :: (d ++ m :: x)) = lookupA st2.fs.files (rn :: (d ++ m :: x))
          · rw [hch]
            exact hl'
          · have hw := processList_writes R o rn fuel (listingOf d rest) st2 _ hch
            obtain ⟨fp', hfp', heq⟩ := List.mem_map.mp hw
            obtain ⟨m', x', hshape, hm'⟩ := entriesFilesR_shape R d rest fp' hfp'
            rw [hshape] at heq
            have hcons : (m :: x : List String) = m' :: x' := by
              have h1 : (d ++ m :: x) = d ++ m' :: x' := by
                injection heq.symm with _ h2
              exact List.append_cancel_left h1
            have : m = m' := (List.cons.injEq .. ▸ hcons).1
            exact absurd (this ▸ hm') hnd.1
        · obtain ⟨b', pl', fl', hb', hdc', hl'⟩ := htail fp hfp
          exact ⟨b', pl', fl', hb', hdc', hl'⟩

theorem pathExists_of_dir (fs : FS) (rn : String) (h : [rn] ∈ fs.dirs) :
    pathExists fs [rn] = true := by
  simp [pathExists, h]

theorem cloneRepo_skip (R : Remote) (fuel : Nat) (origin rn : String) (ref : Option String)
    (st : St) (h : [rn] ∈ st.fs.dirs) :
    cloneRepo R fuel origin rn ref false st =
      (addEvs st [.getRepoCall origin, .listCall ref [], .notice (.skipExisting rn)], none) := by
  unfold cloneRepo
  rw [if_pos ⟨by exact pathExists_of_dir _ _ h, rfl⟩]
  simp [addEvs]

theorem cloneRepo_fresh (R : Remote) (fuel : Nat) (origin rn : String) (ref : Option String)
    (ow : Bool) (st : St) (h : pathExists st.fs [rn] = false) :
    cloneRepo R fuel origin rn ref ow st =
      processList R origin rn fuel (listingOf [] (R ref))
        { fs := mkdirP st.fs [rn],
          evs := st.evs ++ [.getRepoCall origin, .listCall ref [],
            .mkdir [rn], .notice (.processingRepo rn)] } := by
  unfold cloneRepo
  have h' : pathExists (addEvs st [Ev.getRepoCall origin, Ev.listCall ref []]).fs [rn] = false := h
  rw [if_neg (fun hc => by rw [h'] at hc; exact Bool.noConfusion hc.1), if_neg (by
    rw [h']; exact Bool.noConfusion)]
  simp [addEvs, List.append_assoc]

theorem cloneRepo_overwrite (R : Remote) (fuel : Nat) (origin rn : String) (ref : Option String)
    (st : St) (h : [rn] ∈ st.fs.dirs) :
    cloneRepo R fuel origin rn ref true st =
      processList R origin rn fuel (listingOf [] (R ref))
        { fs := mkdirP st.fs [rn],
          evs := st.evs ++ [.getRepoCall origin, .listCall ref [],
            .notice (.overwriteExisting rn), .mkdir [rn], .notice (.processingRepo rn)] } := by
  unfold cloneRepo
  rw [if_neg (fun hc => Bool.noConfusion hc.2), if_pos (by
    exact pathExists_of_dir _ _ h)]
  simp [addEvs, List.append_assoc]

theorem cloneRepo_dest_exists (R : Remote) (fuel : Nat) (origin rn : String)
    (ref : Option String) (ow : Bool) (st : St)
    (hfile : lookupA st.fs.files [rn] = none) :
    [rn] ∈ (cloneRepo R fuel origin rn ref ow st).1.fs.dirs := by
  by_cases hpe : pathExists st.fs [rn] = true
  · have hdir : [rn] ∈ st.fs.dirs := by
      unfold pathExists at hpe
      rw [hfile] at hpe
      simpa using hpe
    cases ow with
    | false =>
      rw [cloneRepo_skip R fuel origin rn ref st hdir]
      exact hdir
    | true =>
      rw [cloneRepo_overwrite R fuel origin rn ref st hdir]
      obtain ⟨Δ, _, hmono, _⟩ := processList_run R origin rn fuel (listingOf [] (R ref))
        { fs := mkdirP st.fs [rn],
          evs := st.evs ++ [.getRepoCall origin, .listCall ref [],
            .notice (.overwriteExisting rn), .mkdir [rn], .notice (.processingRepo rn)] }
      exact hmono [rn] (self_mem_mkdirP _ _ (by simp))
  · rw [cloneRepo_fresh R fuel origin rn ref ow st (by
      cases hb : pathExists st.fs [rn]
      · rfl
      · exact absurd hb hpe)]
    obtain ⟨Δ, _, hmono, _⟩ := processList_run R origin rn fuel (listingOf [] (R ref))
      { fs := mkdirP st.fs [rn],
        evs := st.evs ++ [.getRepoCall origin, .listCall ref [],
          .mkdir [rn], .notice (.processingRepo rn)] }
    exact hmono [rn] (self_mem_mkdirP _ _ (by simp))

/-- Claim C1, counterexample: a clone invocation whose destination
already exists (with `overwrite = false`) does *not* make zero remote
requests: lines 204-205 fetch the repository and its root listing before
the existence check, so the skipped clone's log still contains remote
calls. -/
theorem claim_C1_counterexample :
    (cloneRepo (fun _ => RTree.nil) 1 "owner/r" "r" none false
      ⟨⟨[["r"]], []⟩, []⟩).1.evs.filter Ev.isRemote ≠ [] := by decide

/-- Claim C1 (amended): when the destination directory already exists
and `overwrite = false`, `clone_repo` emits the skip notice and returns
without touching any file and without any *further* remote call beyond
the repository fetch and root listing that lines 204-205 issue before the
existence check; consequently a second clone in a row leaves the
filesystem unchanged (the first part states the guard behaviour, the
second the two-calls-in-a-row scenario, whose second call appends only
the two pre-guard remote calls and the notice). -/
theorem claim_C1 :
    (∀ (R : Remote) (fuel : Nat) (origin rn : String) (ref : Option String) (st : St),
      [rn] ∈ st.fs.dirs →
      cloneRepo R fuel origin rn ref false st =
        (addEvs st [.getRepoCall origin, .listCall ref [], .notice (.skipExisting rn)],
         none)) ∧
    (∀ (R R' : Remote) (fuel fuel' : Nat) (origin rn : String) (ref ref' : Option String)
      (st0 : St), lookupA st0.fs.files [rn] = none →
      cloneRepo R' fuel' origin rn ref' false (cloneRepo R fuel origin rn ref false st0).1 =
        (addEvs (cloneRepo R fuel origin rn ref false st0).1
          [.getRepoCall origin, .listCall ref' [], .notice (.skipExisting rn)], none)) := by
  constructor
  · intro R fuel origin rn ref st h
    exact cloneRepo_skip R fuel origin rn ref st h
  · intro R R' fuel fuel' origin rn ref ref' st0 hfile
    exact cloneRepo_skip R' fuel' origin rn ref' _
      (cloneRepo_dest_exists R fuel origin rn ref false st0 hfile)

/-- Witness for `claim_C1`: a concrete one-directory filesystem and a
fresh clone followed by a second clone. -/
theorem claim_C1_witness :
    ((["r"] ∈ (⟨⟨[["r"]], []⟩, []⟩ : St).fs.dirs) ∧
     cloneRepo (fun _ => RTree.nil) 1 "owner/r" "r" none false ⟨⟨[["r"]], []⟩, []⟩ =
       (addEvs ⟨⟨[["r"]], []⟩, []⟩
         [.getRepoCall "owner/r", .listCall none [], .notice (.skipExisting "r")], none)) ∧
    ((lookupA (⟨⟨[], []⟩, []⟩ : St).fs.files ["r"] = none) ∧
     cloneRepo (fun _ => RTree.nil) 1 "owner/r" "r" none false
         (cloneRepo (fun _ => RTree.nil) 1 "owner/r" "r" none false ⟨⟨[], []⟩, []⟩).1 =
       (addEvs (cloneRepo (fun _ => RTree.nil) 1 "owner/r" "r" none false ⟨⟨[], []⟩, []⟩).1
         [.getRepoCall "owner/r", .listCall none [], .notice (.skipExisting "r")], none)) :=
  ⟨⟨by decide, claim_C1.1 (fun _ => RTree.nil) 1 "owner/r" "r" none _ (by decide)⟩,
   ⟨by decide, claim_C1.2 (fun _ => RTree.nil) (fun _ => RTree.nil) 1 1 "owner/r" "r"
     none none _ (by decide)⟩⟩

/-- Claim C2: a completed clone of a well-formed remote tree writes
every `FILE` entry of the tree to `<repoName>/<entryPath>`, in text mode
(flag 1, decoded code points) when the decode flag is set and in binary
mode (flag 0, the exact raw bytes) otherwise, and — `writesCovered` —
every directory (including `<repoName>` itself, created by the `mkdir`
at line 239) is created before any file inside it is written. -/
theorem claim_C2 (R : Remote) (fuel : Nat) (origin rn : String) (ow : Bool)
    (hwf : (R none).wfb = true)
    (hsucc : (cloneRepo R fuel origin rn none ow ⟨⟨[], []⟩, []⟩).2 = none) :
    (∀ fp ∈ subtreeFiles (R none), ∃ b pl fl,
      blobAt (R none) fp = .ok b ∧
      decode_content b = .ok (pl, fl) ∧
      lookupA (cloneRepo R fuel origin rn none ow ⟨⟨[], []⟩, []⟩).1.fs.files (rn :: fp) =
        some (fl, pl) ∧
      ((fl = 1 ∧ ∃ cs, pl = .text cs) ∨ (fl = 0 ∧ ∃ bs, pl = .binary bs))) ∧
    writesCovered (cloneRepo R fuel origin rn none ow ⟨⟨[], []⟩, []⟩).1.evs [] = true := by
  have hpe : pathExists (⟨⟨[], []⟩, []⟩ : St).fs [rn] = false := by simp [pathExists, lookupA]
  have heq := cloneRepo_fresh R fuel origin rn none ow ⟨⟨[], []⟩, []⟩ hpe
  rw [heq] at hsucc ⊢
  constructor
  · have hfid := processList_fidelity R origin rn fuel (R none) (R none) []
      { fs := mkdirP (⟨[], []⟩ : FS) [rn],
        evs := [.getRepoCall origin, .listCall none [],
          .mkdir [rn], .notice (.processingRepo rn)] }
      rfl hwf (fun _ _ => rfl) (wfb_names_nodup _ hwf)
      (self_mem_mkdirP _ _ (by simp)) hsucc
    intro fp hfp
    obtain ⟨b, pl, fl, hb, hdc, hl⟩ := hfid fp hfp
    rw [List.nil_append] at hb hl
    refine ⟨b, pl, fl, hb, hdc, hl, ?_⟩
    rcases decode_shape b pl fl hdc with ⟨h1, cs, hcs, _⟩ | ⟨h0, bs, hbs, _, _⟩
    · exact Or.inl ⟨h1, cs, hcs⟩
    · exact Or.inr ⟨h0, bs, hbs⟩
  · have hwc := processList_wc R origin rn fuel (listingOf [] (R none))
      { fs := mkdirP (⟨[], []⟩ : FS) [rn],
        evs := [.getRepoCall origin, .listCall none [],
          .mkdir [rn], .notice (.processingRepo rn)] }
      rfl
      (by
        intro d hd
        rcases mem_mkdirP_inv _ _ _ hd with hold | hnew
        · cases hold
        · refine ⟨[rn], ?_, ?_⟩
          · exact (mem_mkAcc _ _ _).mpr (Or.inl (by simp))
          · have : d = [rn] := by simpa [pathSegs] using hnew
            rw [this]
            exact pfxOf_refl _)
    exact hwc.1

/-- Witness for `claim_C2` on the spec's own example tree
`{a.txt: "hi", b/c.bin: 0xFF}`. -/
theorem claim_C2_witness :
    ((RTree.consFile "a.txt" (.ok "aGk=")
        (RTree.consDir "b" (RTree.consFile "c.bin" (.ok "/w==") .nil) .nil)).wfb = true ∧
     (cloneRepo (fun _ => RTree.consFile "a.txt" (.ok "aGk=")
        (RTree.consDir "b" (RTree.consFile "c.bin" (.ok "/w==") .nil) .nil))
        5 "o/r" "r" none false ⟨⟨[], []⟩, []⟩).2 = none) ∧
    ((∀ fp ∈ subtreeFiles ((fun (_ : Option String) => RTree.consFile "a.txt" (.ok "aGk=")
        (RTree.consDir "b" (RTree.consFile "c.bin" (.ok "/w==") .nil) .nil)) none),
      ∃ b pl fl,
      blobAt ((fun (_ : Option String) => RTree.consFile "a.txt" (.ok "aGk=")
        (RTree.consDir "b" (RTree.consFile "c.bin" (.ok "/w==") .nil) .nil)) none) fp =
          .ok b ∧
      decode_content b = .ok (pl, fl) ∧
      lookupA (cloneRepo (fun _ => RTree.consFile "a.txt" (.ok "aGk=")
        (RTree.consDir "b" (RTree.consFile "c.bin" (.ok "/w==") .nil) .nil))
        5 "o/r" "r" none false ⟨⟨[], []⟩, []⟩).1.fs.files ("r" :: fp) = some (fl, pl) ∧
      ((fl = 1 ∧ ∃ cs, pl = .text cs) ∨ (fl = 0 ∧ ∃ bs, pl = .binary bs))) ∧
     writesCovered (cloneRepo (fun _ => RTree.consFile "a.txt" (.ok "aGk=")
        (RTree.consDir "b" (RTree.consFile "c.bin" (.ok "/w==") .nil) .nil))
        5 "o/r" "r" none false ⟨⟨[], []⟩, []⟩).1.evs [] = true) :=
  ⟨⟨by decide, by decide⟩,
   claim_C2 (fun _ => RTree.consFile "a.txt" (.ok "aGk=")
     (RTree.consDir "b" (RTree.consFile "c.bin" (.ok "/w==") .nil) .nil))
     5 "o/r" "r" false (by decide) (by decide)⟩


theorem cloneRepo_skipPE (R : Remote) (fuel : Nat) (origin rn : String) (ref : Option String)
    (st : St) (h : pathExists st.fs [rn] = true) :
    cloneRepo R fuel origin rn ref false st =
      (addEvs st [.getRepoCall origin, .listCall ref [], .notice (.skipExisting rn)], none) := by
  unfold cloneRepo
  rw [if_pos ⟨by exact h, rfl⟩]
  simp [addEvs]

theorem cloneRepo_overwritePE (R : Remote) (fuel : Nat) (origin rn : String)
    (ref : Option String) (st : St) (h : pathExists st.fs [rn] = true) :
    cloneRepo R fuel origin rn ref true st =
      processList R origin rn fuel (listingOf [] (R ref))
        { fs := mkdirP st.fs [rn],
          evs := st.evs ++ [.getRepoCall origin, .listCall ref [],
            .notice (.overwriteExisting rn), .mkdir [rn], .notice (.processingRepo rn)] } := by
  unfold cloneRepo
  rw [if_neg (fun hc => Bool.noConfusion hc.2), if_pos (by exact h)]
  simp [addEvs, List.append_assoc]

/-- Claim C3: during a clone invoked with an explicit ref, only the root
listing is fetched at that ref — every other listing request and every
file-content request in the log carries `ref = none` (`NotSet`), and the
whole clone result depends on the remote only through its default-branch
snapshot and the root listing at `ref`. -/
theorem claim_C3 (R : Remote) (fuel : Nat) (origin rn : String) (ref : Option String)
    (ow : Bool) (fs0 : FS) :
    (∃ rest, (cloneRepo R fuel origin rn ref ow ⟨fs0, []⟩).1.evs =
       .getRepoCall origin :: .listCall ref [] :: rest) ∧
    (∀ r' p', Ev.listCall r' p' ∈ (cloneRepo R fuel origin rn ref ow ⟨fs0, []⟩).1.evs →
      (p' = [] ∧ r' = ref) ∨ r' = none) ∧
    (∀ r' p', Ev.blobCall r' p' ∈ (cloneRepo R fuel origin rn ref ow ⟨fs0, []⟩).1.evs →
      r' = none) ∧
    (∀ (R1 R2 : Remote) (st : St), R1 none = R2 none → R1 ref = R2 ref →
      cloneRepo R1 fuel origin rn ref ow st = cloneRepo R2 fuel origin rn ref ow st) := by
  have hdet : ∀ (R1 R2 : Remote) (st : St), R1 none = R2 none → R1 ref = R2 ref →
      cloneRepo R1 fuel origin rn ref ow st = cloneRepo R2 fuel origin rn ref ow st := by
    intro R1 R2 st hnone href
    unfold cloneRepo
    rw [href]
    simp only [processList_congr R1 R2 origin rn hnone]
  by_cases hpe : pathExists fs0 [rn] = true
  · cases ow with
    | false =>
      rw [cloneRepo_skipPE R fuel origin rn ref ⟨fs0, []⟩ hpe]
      refine ⟨⟨[.notice (.skipExisting rn)], rfl⟩, ?_, ?_, hdet⟩
      · intro r' p' hmem
        simp only [addEvs, List.nil_append, List.mem_cons, List.not_mem_nil,
          or_false] at hmem
        rcases hmem with h | h | h
        · cases h
        · cases h; exact Or.inl ⟨rfl, rfl⟩
        · cases h
      · intro r' p' hmem
        simp only [addEvs, List.nil_append, List.mem_cons, List.not_mem_nil,
          or_false] at hmem
        rcases hmem with h | h | h
        · cases h
        · cases h
        · cases h
    | true =>
      rw [cloneRepo_overwritePE R fuel origin rn ref ⟨fs0, []⟩ hpe]
      obtain ⟨Δ, hevs, _, _⟩ := processList_run R origin rn fuel (listingOf [] (R ref))
        { fs := mkdirP fs0 [rn],
          evs := ([] : List Ev) ++ [.getRepoCall origin, .listCall ref [],
            .notice (.overwriteExisting rn), .mkdir [rn], .notice (.processingRepo rn)] }
      have hrefs := processList_refs R origin rn fuel (listingOf [] (R ref))
        { fs := mkdirP fs0 [rn],
          evs := ([] : List Ev) ++ [.getRepoCall origin, .listCall ref [],
            .notice (.overwriteExisting rn), .mkdir [rn], .notice (.processingRepo rn)] }
      refine ⟨⟨[.notice (.overwriteExisting rn), .mkdir [rn],
        .notice (.processingRepo rn)] ++ Δ, by simpa using hevs⟩, ?_, ?_, hdet⟩
      · intro r' p' hmem
        rcases hrefs.1 r' p' hmem with hin | hnone
        · simp only [List.nil_append, List.mem_cons, List.not_mem_nil, or_false] at hin
          rcases hin with h | h | h | h | h
          · cases h
          · cases h; exact Or.inl ⟨rfl, rfl⟩
          · cases h
          · cases h
          · cases h
        · exact Or.inr hnone
      · intro r' p' hmem
        rcases hrefs.2 r' p' hmem with hin | hnone
        · simp only [List.nil_append, List.mem_cons, List.not_mem_nil, or_false] at hin
          rcases hin with h | h | h | h | h
          · cases h
          · cases h
          · cases h
          · cases h
          · cases h
        · exact hnone
  · have hpe' : pathExists fs0 [rn] = false := by
      cases hb : pathExists fs0 [rn]
      · rfl
      · exact absurd hb hpe
    rw [cloneRepo_fresh R fuel origin rn ref ow ⟨fs0, []⟩ hpe']
    obtain ⟨Δ, hevs, _, _⟩ := processList_run R origin rn fuel (listingOf [] (R ref))
      { fs := mkdirP fs0 [rn],
        evs := ([] : List Ev) ++ [.getRepoCall origin, .listCall ref [],
          .mkdir [rn], .notice (.processingRepo rn)] }
    have hrefs := processList_refs R origin rn fuel (listingOf [] (R ref))
      { fs := mkdirP fs0 [rn],
        evs := ([] : List Ev) ++ [.getRepoCall origin, .listCall ref [],
          .mkdir [rn], .notice (.processingRepo rn)] }
    refine ⟨⟨[.mkdir [rn], .notice (.processingRepo rn)] ++ Δ, by simpa using hevs⟩,
      ?_, ?_, hdet⟩
    · intro r' p' hmem
      rcases hrefs.1 r' p' hmem with hin | hnone
      · simp only [List.nil_append, List.mem_cons, List.not_mem_nil, or_false] at hin
        rcases hin with h | h | h | h
        · cases h
        · cases h; exact Or.inl ⟨rfl, rfl⟩
        · cases h
        · cases h
      · exact Or.inr hnone
    · intro r' p' hmem
      rcases hrefs.2 r' p' hmem with hin | hnone
      · simp only [List.nil_append, List.mem_cons, List.not_mem_nil, or_false] at hin
        rcases hin with h | h | h | h
        · cases h
        · cases h
        · cases h
        · cases h
      · exact hnone

/-- Witness for `claim_C3`'s determinism conjunct at a concrete remote
and ref. -/
theorem claim_C3_witness :
    ((fun (_ : Option String) => (RTree.nil : RTree)) none =
       (fun (_ : Option String) => (RTree.nil : RTree)) none ∧
     (fun (_ : Option String) => (RTree.nil : RTree)) (some "main") =
       (fun (_ : Option String) => (RTree.nil : RTree)) (some "main")) ∧
    cloneRepo (fun _ => RTree.nil) 2 "o/r" "r" (some "main") false ⟨⟨[], []⟩, []⟩ =
      cloneRepo (fun _ => RTree.nil) 2 "o/r" "r" (some "main") false ⟨⟨[], []⟩, []⟩ :=
  ⟨⟨rfl, rfl⟩,
   (claim_C3 (fun _ => RTree.nil) 2 "o/r" "r" (some "main") false ⟨[], []⟩).2.2.2
     (fun _ => RTree.nil) (fun _ => RTree.nil) ⟨⟨[], []⟩, []⟩ rfl rfl⟩

/-- Claim C8: a completed clone with `overwrite = true` over an existing
destination rewrites every file of the remote tree in place, and never
touches (in particular never deletes) any local file whose path is not a
remote file path — an additive overwrite. -/
theorem claim_C8 (R : Remote) (fuel : Nat) (origin rn : String) (st : St)
    (hdest : [rn] ∈ st.fs.dirs) (hwf : (R none).wfb = true)
    (hsucc : (cloneRepo R fuel origin rn none true st).2 = none) :
    (∀ fp ∈ subtreeFiles (R none), ∃ b pl fl,
      blobAt (R none) fp = .ok b ∧
      decode_content b = .ok (pl, fl) ∧
      lookupA (cloneRepo R fuel origin rn none true st).1.fs.files (rn :: fp) =
        some (fl, pl)) ∧
    (∀ q, q ∉ (subtreeFiles (R none)).map (rn :: ·) →
      lookupA (cloneRepo R fuel origin rn none true st).1.fs.files q =
        lookupA st.fs.files q) := by
  have heq := cloneRepo_overwrite R fuel origin rn none st hdest
  rw [heq] at hsucc ⊢
  constructor
  · have hfid := processList_fidelity R origin rn fuel (R none) (R none) []
      { fs := mkdirP st.fs [rn],
        evs := st.evs ++ [.getRepoCall origin, .listCall none [],
          .notice (.overwriteExisting rn), .mkdir [rn], .notice (.processingRepo rn)] }
      rfl hwf (fun _ _ => rfl) (wfb_names_nodup _ hwf)
      (self_mem_mkdirP _ _ (by simp)) hsucc
    intro fp hfp
    obtain ⟨b, pl, fl, hb, hdc, hl⟩ := hfid fp hfp
    rw [List.nil_append] at hb hl
    exact ⟨b, pl, fl, hb, hdc, hl⟩
  · intro q hq
    by_contra hne
    have hw := processList_writes R origin rn fuel (listingOf [] (R none))
      { fs := mkdirP st.fs [rn],
        evs := st.evs ++ [.getRepoCall origin, .listCall none [],
          .notice (.overwriteExisting rn), .mkdir [rn], .notice (.processingRepo rn)] }
      q (by
        intro hb
        refine hne ?_
        rw [hb]
        show lookupA (mkdirP st.fs [rn]).files q = _
        rw [files_mkdirP])
    obtain ⟨fp, hfp, rfl⟩ := List.mem_map.mp hw
    have hsubform := entriesFilesR_listing_sub R [] (R none) rfl (R none)
      (fun x hx => hx) fp hfp
    refine hq ?_
    obtain ⟨x, hx, hxx⟩ := List.mem_map.mp hsubform
    rw [List.nil_append] at hxx
    exact List.mem_map.mpr ⟨fp, hxx ▸ hx, rfl⟩

/-- Witness for `claim_C8`: an existing destination holding a stale
`old.txt` that the overwriting clone leaves in place. -/
theorem claim_C8_witness :
    (["r"] ∈ (⟨⟨[["r"]], [(["r", "old.txt"], (0, Payload.binary [1]))]⟩, []⟩ : St).fs.dirs ∧
     (RTree.consFile "a.txt" (.ok "aGk=") .nil).wfb = true ∧
     (cloneRepo (fun _ => RTree.consFile "a.txt" (.ok "aGk=") .nil) 3 "o/r" "r" none true
        ⟨⟨[["r"]], [(["r", "old.txt"], (0, Payload.binary [1]))]⟩, []⟩).2 = none) ∧
    ((∀ fp ∈ subtreeFiles ((fun (_ : Option String) =>
        RTree.consFile "a.txt" (.ok "aGk=") .nil) none), ∃ b pl fl,
      blobAt ((fun (_ : Option String) => RTree.consFile "a.txt" (.ok "aGk=") .nil) none) fp =
        .ok b ∧
      decode_content b = .ok (pl, fl) ∧
      lookupA (cloneRepo (fun _ => RTree.consFile "a.txt" (.ok "aGk=") .nil) 3 "o/r" "r"
        none true ⟨⟨[["r"]], [(["r", "old.txt"], (0, Payload.binary [1]))]⟩, []⟩).1.fs.files
        ("r" :: fp) = some (fl, pl)) ∧
     (∀ q, q ∉ (subtreeFiles ((fun (_ : Option String) =>
        RTree.consFile "a.txt" (.ok "aGk=") .nil) none)).map (List.cons "r") →
      lookupA (cloneRepo (fun _ => RTree.consFile "a.txt" (.ok "aGk=") .nil) 3 "o/r" "r"
        none true ⟨⟨[["r"]], [(["r", "old.txt"], (0, Payload.binary [1]))]⟩, []⟩).1.fs.files
        q = lookupA (⟨⟨[["r"]], [(["r", "old.txt"], (0, Payload.binary [1]))]⟩,
          []⟩ : St).fs.files q)) :=
  ⟨⟨by decide, by decide, by decide⟩,
   claim_C8 (fun _ => RTree.consFile "a.txt" (.ok "aGk=") .nil) 3 "o/r" "r"
     ⟨⟨[["r"]], [(["r", "old.txt"], (0, Payload.binary [1]))]⟩, []⟩
     (by decide) (by decide) (by decide)⟩

/-- Claim C9: if the walk over a prefix of the entries raises, the walk
over the full entry list stops at the same point with the same exception
propagated unmodified (the remaining entries are never processed), and
the state at the failure is the initial state plus the logged events,
with every file written before the failure still present (its content is
the last write in the log; no rollback, no cleanup). -/
theorem claim_C9 (R : Remote) (fuel : Nat) (origin rn : String)
    (es1 es2 : List (List String × Bool)) (st st1 : St) (ex : Exn)
    (h : processList R origin rn fuel es1 st = (st1, some ex)) :
    processList R origin rn fuel (es1 ++ es2) st = (st1, some ex) ∧
    ∃ Δ, st1.evs = st.evs ++ Δ ∧
      ∀ q, lookupA st1.fs.files q = (lastWrite Δ q).or (lookupA st.fs.files q) := by
  refine ⟨processList_abort R origin rn fuel es1 es2 st st1 ex h, ?_⟩
  obtain ⟨Δ, hevs, _, hfiles⟩ := processList_run R origin rn fuel es1 st
  rw [h] at hevs hfiles
  exact ⟨Δ, hevs, hfiles⟩

/-- Witness for `claim_C9`: a transport failure on `c.bin` after
`a.txt` was written; the suffix entry `z.txt` is never processed. -/
theorem claim_C9_witness :
    (processList (fun _ => RTree.consFile "a.txt" (.ok "aGk=")
        (RTree.consFile "c.bin" (.error ()) .nil)) "o/r" "r" 3
      [(["a.txt"], false), (["c.bin"], false)]
      ⟨⟨[["r"]], []⟩, []⟩ =
      ((processList (fun _ => RTree.consFile "a.txt" (.ok "aGk=")
          (RTree.consFile "c.bin" (.error ()) .nil)) "o/r" "r" 3
        [(["a.txt"], false), (["c.bin"], false)]
        ⟨⟨[["r"]], []⟩, []⟩).1, some Exn.transport)) ∧
    (processList (fun _ => RTree.consFile "a.txt" (.ok "aGk=")
        (RTree.consFile "c.bin" (.error ()) .nil)) "o/r" "r" 3
      ([(["a.txt"], false), (["c.bin"], false)] ++ [(["z.txt"], false)])
      ⟨⟨[["r"]], []⟩, []⟩ =
      ((processList (fun _ => RTree.consFile "a.txt" (.ok "aGk=")
          (RTree.consFile "c.bin" (.error ()) .nil)) "o/r" "r" 3
        [(["a.txt"], false), (["c.bin"], false)]
        ⟨⟨[["r"]], []⟩, []⟩).1, some Exn.transport) ∧
     ∃ Δ, (processList (fun _ => RTree.consFile "a.txt" (.ok "aGk=")
          (RTree.consFile "c.bin" (.error ()) .nil)) "o/r" "r" 3
        [(["a.txt"], false), (["c.bin"], false)]
        ⟨⟨[["r"]], []⟩, []⟩).1.evs = (⟨⟨[["r"]], []⟩, []⟩ : St).evs ++ Δ ∧
      ∀ q, lookupA (processList (fun _ => RTree.consFile "a.txt" (.ok "aGk=")
          (RTree.consFile "c.bin" (.error ()) .nil)) "o/r" "r" 3
        [(["a.txt"], false), (["c.bin"], false)]
        ⟨⟨[["r"]], []⟩, []⟩).1.fs.files q =
        (lastWrite Δ q).or (lookupA (⟨⟨[["r"]], []⟩, []⟩ : St).fs.files q)) :=
  ⟨by decide,
   claim_C9 (fun _ => RTree.consFile "a.txt" (.ok "aGk=")
       (RTree.consFile "c.bin" (.error ()) .nil)) 3 "o/r" "r"
     [(["a.txt"], false), (["c.bin"], false)] [(["z.txt"], false)]
     ⟨⟨[["r"]], []⟩, []⟩ _ Exn.transport (by decide)⟩

end GhApi
